import Mathlib

/-!
Verification of the LR(1) recognizer (grammar.py, parser.py).

Python dictionaries are modelled as total functions `String → List String`
together with an explicit key set; a lookup of a missing key (Python
`KeyError`) is modelled as `none`.  Python sets are modelled as
duplicate-free lists: `set.add` inserts only when absent, so list length
plays the role of `len` in the change detection of the fixpoint loops.
`while` loops are modelled with an explicit fuel argument; the fuel
chosen in the definitions is proved sufficient where a claim needs it.
-/

namespace LRSpec

/-- The ε marker used inside FIRST sets (grammar.py). -/
def eps : String := "ε"

/-- The end-of-input marker appended by `predict` (parser.py). -/
def dollar : String := "$"

/-- Python `set.add`: insert when absent (keeps lists duplicate-free). -/
def insS (l : List String) (x : String) : List String :=
  if x ∈ l then l else l ++ [x]

/-- Python `set.update`: union, inserting the new elements one by one. -/
def unionS (l : List String) (xs : List String) : List String :=
  xs.foldl insS l

/-- Python set difference `l - xs`. -/
def diffS (l xs : List String) : List String :=
  l.filter (fun x => !(decide (x ∈ xs)))

/-- A production `left -> right` (grammar.py, class Rule); an empty
`right` represents ε. -/
structure Rule where
  left : String
  right : List String
deriving DecidableEq, Repr

/-- A Python dict with string keys and set values, as a total function;
the key set is kept separately. -/
abbrev SymMap := String → List String

/-- Dict assignment `m[k] = v`. -/
def upd (m : SymMap) (k : String) (v : List String) : SymMap :=
  fun s => if s = k then v else m s

/-- Dict lookup `m[s]` with key set `dom`; `none` models `KeyError`. -/
def dGet (dom : List String) (m : SymMap) (s : String) : Option (List String) :=
  if s ∈ dom then some (m s) else none

/-- Inner loop of `compute_first` over a rule's right-hand side
(grammar.py lines 60-72): extend FIRST(left) with FIRST(symbol) - {ε},
stop at the first symbol without ε, and add ε when every symbol of the
right-hand side has ε. -/
def rhsFirst (dom : List String) (left : String) : List String → SymMap → Option SymMap
  | [], m => some (upd m left (insS (m left) eps))
  | sym :: rest, m =>
    match dGet dom m sym with
    | none => none
    | some fs =>
      let m1 := upd m left (unionS (m left) (diffS fs [eps]))
      if eps ∈ fs then rhsFirst dom left rest m1 else some m1

/-- One rule of a `compute_first` pass: look up FIRST(left), remember its
size, process the right-hand side, and record whether the set grew. -/
def firstRuleStep (dom : List String) (acc : SymMap × Bool) (r : Rule) :
    Option (SymMap × Bool) :=
  match dGet dom acc.1 r.left with
  | none => none
  | some fl =>
    match (if r.right.isEmpty then some (upd acc.1 r.left (insS fl eps))
           else rhsFirst dom r.left r.right acc.1) with
    | none => none
    | some m1 => some (m1, acc.2 || decide (fl.length < (m1 r.left).length))

/-- One full pass of the `while changed` loop of `compute_first`. -/
def firstPass (dom : List String) (rules : List Rule) (m : SymMap) :
    Option (SymMap × Bool) :=
  rules.foldlM (firstRuleStep dom) (m, false)

/-- The `while changed` loop of `compute_first`, with fuel. -/
def firstLoop (dom : List String) (rules : List Rule) : Nat → SymMap → Option SymMap
  | 0, _ => none
  | n + 1, m =>
    match firstPass dom rules m with
    | none => none
    | some (m1, ch) => if ch then firstLoop dom rules n m1 else some m1

/-- Fuel sufficient for `firstLoop` (proved below): every FIRST set is a
duplicate-free subset of T ∪ {ε}. -/
def firstFuel (dom ts : List String) : Nat :=
  dom.dedup.length * (ts.dedup.length + 2) + 1

/-- `Grammar.compute_first` (grammar.py lines 36-76): the dict has keys
N ∪ T, terminals start as singletons of themselves, and productions are
iterated until a pass changes nothing. -/
def compute_first (nts ts : List String) (rules : List Rule) : Option SymMap :=
  firstLoop (nts ++ ts) rules (firstFuel (nts ++ ts) ts)
    (fun s => if s ∈ ts then [s] else [])

/-- `Grammar.first_sequence` (grammar.py lines 117-133). -/
def first_sequence (dom : List String) (m : SymMap) : List String → Option (List String)
  | [] => some [eps]
  | s :: rest =>
    match dGet dom m s with
    | none => none
    | some fs =>
      if eps ∈ fs then
        match first_sequence dom m rest with
        | none => none
        | some r => some (unionS (diffS fs [eps]) r)
      else some (diffS fs [eps])

/-- Body of `compute_follow` for one position B of a rule's right-hand
side, with `rest` the symbols after B (grammar.py lines 94-115). -/
def followPosStep (nts dom : List String) (first : SymMap) (left B : String)
    (rest : List String) (fo : SymMap) : Option SymMap :=
  if rest.isEmpty then
    match dGet nts fo left with
    | none => none
    | some fl => some (upd fo B (unionS (fo B) fl))
  else
    match first_sequence dom first rest with
    | none => none
    | some fb =>
      let fo1 := upd fo B (unionS (fo B) (diffS fb [eps]))
      if eps ∈ fb then
        match dGet nts fo1 left with
        | none => none
        | some fl => some (upd fo1 B (unionS (fo1 B) fl))
      else some fo1

/-- The position loop of one `compute_follow` rule. -/
def followPositions (nts dom : List String) (first : SymMap) (left : String) :
    List String → SymMap → Bool → Option (SymMap × Bool)
  | [], fo, ch => some (fo, ch)
  | B :: rest, fo, ch =>
    if B ∈ nts then
      match followPosStep nts dom first left B rest fo with
      | none => none
      | some fo2 =>
        followPositions nts dom first left rest fo2
          (ch || decide ((fo B).length < (fo2 B).length))
    else followPositions nts dom first left rest fo ch

/-- One full pass of the `while changed` loop of `compute_follow`. -/
def followPass (nts dom : List String) (first : SymMap) (rules : List Rule)
    (fo : SymMap) : Option (SymMap × Bool) :=
  rules.foldlM (fun acc r => followPositions nts dom first r.left r.right acc.1 acc.2)
    (fo, false)

/-- The `while changed` loop of `compute_follow`, with fuel. -/
def followLoop (nts dom : List String) (first : SymMap) (rules : List Rule) :
    Nat → SymMap → Option SymMap
  | 0, _ => none
  | n + 1, fo =>
    match followPass nts dom first rules fo with
    | none => none
    | some (fo1, ch) => if ch then followLoop nts dom first rules n fo1 else some fo1

/-- Fuel sufficient for `followLoop`. -/
def followFuel (nts ts : List String) : Nat :=
  nts.dedup.length * (ts.dedup.length + 3) + 1

/-- `Grammar.compute_follow` (grammar.py lines 78-115): keys are the
nonterminals, `$` seeds FOLLOW of the augmented start. -/
def compute_follow (nts ts : List String) (rules : List Rule) (first : SymMap)
    (aug : String) : Option SymMap :=
  followLoop nts (nts ++ ts) first rules (followFuel nts ts)
    (fun s => if s = aug then [dollar] else [])

/-- The grammar value produced by `Grammar.__init__`. -/
structure GrammarData where
  non_terminals : List String
  terminals : List String
  rules : List Rule
  start_symbol : String
  augmented_start : String
  firstMap : SymMap
  followMap : SymMap

/-- The augmented start name: the start symbol with an apostrophe
appended (grammar.py line 28). -/
def augName (s : String) : String := s ++ String.singleton (Char.ofNat 39)

/-- `Grammar.__init__` (grammar.py lines 23-34): add the augmented start
to the nonterminals, insert the rule `S1 -> S` at index 0 (writing S1 for
the augmented name), then compute FIRST and FOLLOW.  No validation is
performed; the only failures are missing-key lookups inside the two
computations. -/
def grammarInit (nts ts : List String) (rules : List Rule) (start : String) :
    Option GrammarData :=
  let aug := augName start
  let nts1 := insS nts aug
  let rules1 := ⟨aug, [start]⟩ :: rules
  match compute_first nts1 ts rules1 with
  | none => none
  | some f =>
    match compute_follow nts1 ts rules1 f aug with
    | none => none
    | some fo => some ⟨nts1, ts, rules1, start, aug, f, fo⟩

/-- An LR(1) item (parser.py, class LR1Item). -/
structure LR1Item where
  left : String
  right : List String
  dot : Nat
  lookahead : String
deriving DecidableEq, Repr

/-- `LR1Item.next_symbol` (parser.py lines 32-38): the symbol after the
dot, if any. -/
def LR1Item.next_symbol (it : LR1Item) : Option String :=
  it.right.get? it.dot

/-- `LR1Item.is_complete` (parser.py lines 40-44). -/
def LR1Item.is_complete (it : LR1Item) : Bool :=
  decide (it.right.length ≤ it.dot)

/-- The key set of the grammar's FIRST dict, as used by the parser's
calls to `first_sequence`. -/
def GrammarData.firstDom (g : GrammarData) : List String :=
  g.non_terminals ++ g.terminals

/-- The lookahead set generated by one closure step for an item whose
dot stands before a nonterminal (parser.py lines 92-102): FIRST(β)
without ε, joined with the item's own lookahead when β can vanish. -/
def lookaheadsOf (g : GrammarData) (it : LR1Item) : Option (List String) :=
  let beta := it.right.drop (it.dot + 1)
  if beta.isEmpty then some [it.lookahead]
  else
    match first_sequence g.firstDom g.firstMap beta with
    | none => none
    | some fb =>
      if eps ∈ fb then some (insS (diffS fb [eps]) it.lookahead) else some fb

/-- Add a freshly generated item when it has not been seen, recording it
for the queue (`closure_set.add` plus `queue.append`). -/
def insItem (acc : List LR1Item × List LR1Item) (it : LR1Item) :
    List LR1Item × List LR1Item :=
  if it ∈ acc.1 then acc else (acc.1 ++ [it], acc.2 ++ [it])

/-- The lookahead loop of `closure` for one rule with left-hand side B. -/
def genRule (r : Rule) (B : String) (las : List String)
    (acc : List LR1Item × List LR1Item) : List LR1Item × List LR1Item :=
  if r.left = B then
    las.foldl (fun acc2 la => insItem acc2 ⟨r.left, r.right, 0, la⟩) acc
  else acc

/-- The inner double loop of `closure` (parser.py lines 104-111): for
every rule with left-hand side B and every generated lookahead, add the
fresh item when it has not been seen, and enqueue it. -/
def genItems (rules : List Rule) (B : String) (las : List String)
    (seen adds : List LR1Item) : List LR1Item × List LR1Item :=
  rules.foldl (fun acc r => genRule r B las acc) (seen, adds)

/-- The worklist loop of `LR1Parser.closure` (parser.py lines 79-112),
with fuel. -/
def closureLoop (g : GrammarData) : Nat → List LR1Item → List LR1Item →
    Option (List LR1Item)
  | 0, _, _ => none
  | _ + 1, seen, [] => some seen
  | n + 1, seen, it :: queue =>
    match it.next_symbol with
    | none => closureLoop g n seen queue
    | some b =>
      if b ∈ g.non_terminals then
        match lookaheadsOf g it with
        | none => none
        | some las =>
          let sa := genItems g.rules b las seen []
          closureLoop g n sa.1 (queue ++ sa.2)
      else closureLoop g n seen queue

/-- `LR1Parser.closure` (parser.py lines 79-112). -/
def closure (g : GrammarData) (fuel : Nat) (items : List LR1Item) :
    Option (List LR1Item) :=
  closureLoop g fuel items items

/-- `LR1Parser.goto` (parser.py lines 114-127): advance the dot over
`symbol` and close, returning the empty set when nothing moves. -/
def goto (g : GrammarData) (fuel : Nat) (items : List LR1Item) (symbol : String) :
    Option (List LR1Item) :=
  let moved := (items.filter (fun it => it.next_symbol = some symbol)).map
    (fun it => LR1Item.mk it.left it.right (it.dot + 1) it.lookahead)
  if moved.isEmpty then some [] else closure g fuel moved

/-- Python set equality of two item lists. -/
def setEqI (a b : List LR1Item) : Bool :=
  a.all (fun x => decide (x ∈ b)) && b.all (fun x => decide (x ∈ a))

/-- `self.states.index I` under set equality: the first index whose
state equals `I` as a set (`ValueError` is `none`). -/
def idxOf (states : List (List LR1Item)) (I : List LR1Item) : Option Nat :=
  match states with
  | [] => none
  | J :: rest => if setEqI J I then some 0 else (idxOf rest I).map (· + 1)

/-- One symbol of the inner loop of `build_states` (parser.py lines
142-150): compute GOTO, register the target state when new, and record
the transition. -/
def symStep (g : GrammarData) (fuel : Nat) (I : List LR1Item)
    (acc : List (List LR1Item) × List (List LR1Item) × List (Nat × String × Nat))
    (symbol : String) :
    Option (List (List LR1Item) × List (List LR1Item) × List (Nat × String × Nat)) :=
  match goto g fuel I symbol with
  | none => none
  | some gI =>
    if gI.isEmpty then some acc
    else
      let sts := if (acc.1.any (fun J => setEqI J gI)) then acc.1 else acc.1 ++ [gI]
      let q := if (acc.1.any (fun J => setEqI J gI)) then acc.2.1 else acc.2.1 ++ [gI]
      match idxOf sts I with
      | none => none
      | some f =>
        match idxOf sts gI with
        | none => none
        | some t => some (sts, q, acc.2.2 ++ [(f, symbol, t)])

/-- The symbol iteration order of `build_states`: the code iterates the
set N ∪ T; the embedding fixes the declaration order. -/
def GrammarData.symbols (g : GrammarData) : List String :=
  unionS g.non_terminals g.terminals

/-- The worklist loop of `build_states` (parser.py lines 140-151). -/
def buildStatesLoop (g : GrammarData) (fuel : Nat) :
    Nat → List (List LR1Item) → List (List LR1Item) →
    List (Nat × String × Nat) →
    Option (List (List LR1Item) × List (Nat × String × Nat))
  | 0, _, _, _ => none
  | _ + 1, states, [], trs => some (states, trs)
  | n + 1, states, I :: queue, trs =>
    match g.symbols.foldlM (symStep g fuel I) (states, ([] : List (List LR1Item)), trs) with
    | none => none
    | some (sts, q, trs) => buildStatesLoop g fuel n sts (queue ++ q) trs

/-- `LR1Parser.build_states` (parser.py lines 129-152). -/
def build_states (g : GrammarData) (fuel bfuel : Nat) :
    Option (List (List LR1Item) × List (Nat × String × Nat)) :=
  match closure g fuel [⟨g.augmented_start, [g.start_symbol], 0, dollar⟩] with
  | none => none
  | some I0 => buildStatesLoop g fuel bfuel [I0] [I0] []

/-- An entry of the ACTION table (parser.py build_tables):
`('shift', j)`, `('reduce', left, right)` or `('accept',)`. -/
inductive Action where
  | shift (j : Nat)
  | reduce (left : String) (right : List String)
  | accept
deriving DecidableEq, Repr

/-- Association-list lookup for table rows (Python dict lookup `.get`). -/
def alookup {α : Type} : List (String × α) → String → Option α
  | [], _ => none
  | (k, v) :: rest, s => if k = s then some v else alookup rest s

/-- Result of table construction: `conflict` is `build_tables` returning
False, `crash` an uncaught `KeyError`, `IndexError` or `ValueError`. -/
inductive TR (α : Type) where
  | ok (a : α)
  | conflict
  | crash
deriving Repr

/-- The cell contribution of one item of state `I` (parser.py lines
165-198): the (terminal, action) pair the item writes, if any. -/
def itemCell (g : GrammarData) (states : List (List LR1Item)) (fuel : Nat)
    (I : List LR1Item) (it : LR1Item) : TR (Option (String × Action)) :=
  if it.is_complete then
    if it.left = g.augmented_start then
      if it.lookahead = dollar then .ok (some (dollar, .accept)) else .ok none
    else .ok (some (it.lookahead, .reduce it.left it.right))
  else
    match it.next_symbol with
    | none => .ok none
    | some sym =>
      if sym ∈ g.terminals then
        match goto g fuel I sym with
        | none => .crash
        | some gI =>
          if gI.isEmpty then .ok none
          else
            match idxOf states gI with
            | none => .crash
            | some j => .ok (some (sym, .shift j))
      else .ok none

/-- Insert the item's cell into the row, detecting a conflict when the
cell already holds a different action (parser.py lines 171-198). -/
def rowStep (g : GrammarData) (states : List (List LR1Item)) (fuel : Nat)
    (I : List LR1Item) (row : List (String × Action)) (it : LR1Item) :
    TR (List (String × Action)) :=
  match itemCell g states fuel I it with
  | .crash => .crash
  | .conflict => .conflict
  | .ok none => .ok row
  | .ok (some (k, a)) =>
    match alookup row k with
    | some a0 => if a0 = a then .ok row else .conflict
    | none => .ok (row ++ [(k, a)])

/-- The ACTION row of one state. -/
def buildRow (g : GrammarData) (states : List (List LR1Item)) (fuel : Nat)
    (I : List LR1Item) : TR (List (String × Action)) :=
  I.foldl
    (fun acc it =>
      match acc with
      | .ok row => rowStep g states fuel I row it
      | r => r)
    (.ok [])

/-- The state loop of `build_tables` building all ACTION rows. -/
def buildActionTable (g : GrammarData) (states : List (List LR1Item)) (fuel : Nat) :
    TR (List (List (String × Action))) :=
  states.foldl
    (fun acc I =>
      match acc with
      | .ok rows =>
        match buildRow g states fuel I with
        | .ok row => .ok (rows ++ [row])
        | .conflict => .conflict
        | .crash => .crash
      | r => r)
    (.ok [])

/-- Dict assignment `row[symbol] = t` (overwrites an existing key). -/
def aset (row : List (String × Nat)) (k : String) (t : Nat) : List (String × Nat) :=
  match alookup row k with
  | some _ => row.map (fun p => if p.1 = k then (k, t) else p)
  | none => row ++ [(k, t)]

/-- The GOTO-table loop of `build_tables` (parser.py lines 200-203). -/
def buildGotoTable (g : GrammarData) (n : Nat)
    (trs : List (Nat × String × Nat)) : Option (List (List (String × Nat))) :=
  trs.foldlM
    (fun tbl tr =>
      if tr.2.1 ∈ g.non_terminals then
        match tbl.get? tr.1 with
        | none => none
        | some row => some (tbl.set tr.1 (aset row tr.2.1 tr.2.2))
      else some tbl)
    (List.replicate n ([] : List (String × Nat)))

/-- `LR1Parser.build_tables` (parser.py lines 154-205). -/
def build_tables (g : GrammarData) (states : List (List LR1Item))
    (trs : List (Nat × String × Nat)) (fuel : Nat) :
    TR (List (List (String × Action)) × List (List (String × Nat))) :=
  match buildActionTable g states fuel with
  | .crash => .crash
  | .conflict => .conflict
  | .ok rows =>
    match buildGotoTable g states.length trs with
    | none => .crash
    | some gt => .ok (rows, gt)

/-- The recognizer produced by a successful `fit`. -/
structure Parser where
  grammar : GrammarData
  states : List (List LR1Item)
  action_table : List (List (String × Action))
  goto_table : List (List (String × Nat))

/-- Result of `LR1Parser.fit`: `notLR1` is the `GrammarError` raised on
a conflict, `err` any other uncaught exception (or exhausted fuel). -/
inductive FitRes where
  | ok (p : Parser)
  | notLR1
  | err

/-- `LR1Parser.fit` (parser.py lines 66-77). -/
def fit (g : GrammarData) (fuel bfuel : Nat) : FitRes :=
  match build_states g fuel bfuel with
  | none => .err
  | some (states, trs) =>
    match build_tables g states trs fuel with
    | .crash => .err
    | .conflict => .notLR1
    | .ok (at_, gt) => .ok ⟨g, states, at_, gt⟩

/-- Result of one `predict` call: `acc b` is a returned boolean, `crash`
an uncaught exception, `out` exhausted fuel. -/
inductive PR where
  | acc (b : Bool)
  | crash
  | out
deriving DecidableEq, Repr

/-- The reduce pop loop (parser.py lines 236-243): pop one state per
right-hand-side symbol while more than one entry remains; `none` is the
`return False` taken when the stack would empty. -/
def popLoop : List String → List Nat → Option (List Nat)
  | [], st => some st
  | _ :: rs, st =>
    match st with
    | _ :: b :: tl => popLoop rs (b :: tl)
    | _ => none

/-- The `while True` driver loop of `predict` (parser.py lines 217-256);
the stack keeps its top at the head. -/
def predictLoop (P : Parser) : Nat → List Nat → List String → Nat → PR
  | 0, _, _, _ => .out
  | n + 1, stack, word, idx =>
    match stack with
    | [] => .crash
    | state :: rest =>
      match P.action_table.get? state with
      | none => .crash
      | some row =>
        match alookup row (word.getD idx dollar) with
        | none => .acc false
        | some (.shift j) => predictLoop P n (j :: state :: rest) word (idx + 1)
        | some (.reduce left right) =>
          match popLoop right (state :: rest) with
          | none => .acc false
          | some stack1 =>
            match stack1 with
            | [] => .crash
            | s2 :: tl =>
              match P.goto_table.get? s2 with
              | none => .crash
              | some grow =>
                match alookup grow left with
                | none => .acc false
                | some t => predictLoop P n (t :: s2 :: tl) word idx
        | some .accept => .acc true

/-- `LR1Parser.predict` (parser.py lines 207-256): append the `$`
sentinel, start from state 0 and run the driver. -/
def predict (P : Parser) (w : List String) (fuel : Nat) : PR :=
  predictLoop P fuel [0] (w ++ [dollar]) 0

/-! ### Derivability

The rewriting relation of the grammar: `Derives rules α β` holds when β
is obtained from α by finitely many applications of productions. -/

/-- One-step-at-a-time derivability between sentential forms. -/
inductive Derives (rules : List Rule) : List String → List String → Prop
  | refl (α : List String) : Derives rules α α
  | step (r : Rule) (β γ : List String) (hr : r ∈ rules)
      (h : Derives rules α (β ++ r.left :: γ)) :
      Derives rules α (β ++ r.right ++ γ)

/-! ### Set-list lemmas -/

theorem mem_insS {l : List String} {x y : String} :
    y ∈ insS l x ↔ y ∈ l ∨ y = x := by
  unfold insS
  by_cases h : x ∈ l
  · simp only [if_pos h]
    constructor
    · exact fun hy => Or.inl hy
    · rintro (hy | rfl) <;> [exact hy; exact h]
  · simp [if_neg h]

theorem subset_insS {l : List String} {x : String} : ∀ y ∈ l, y ∈ insS l x :=
  fun _ hy => mem_insS.mpr (Or.inl hy)

theorem mem_unionS {l xs : List String} {y : String} :
    y ∈ unionS l xs ↔ y ∈ l ∨ y ∈ xs := by
  induction xs generalizing l with
  | nil => simp [unionS]
  | cons x xs ih =>
    show y ∈ unionS (insS l x) xs ↔ _
    rw [ih, mem_insS]
    constructor
    · rintro ((h | rfl) | h)
      · exact Or.inl h
      · exact Or.inr (by simp)
      · exact Or.inr (by simp [h])
    · rintro (h | h)
      · exact Or.inl (Or.inl h)
      · rcases List.mem_cons.mp h with rfl | h
        · exact Or.inl (Or.inr rfl)
        · exact Or.inr h

theorem subset_unionS {l xs : List String} : ∀ y ∈ l, y ∈ unionS l xs :=
  fun _ hy => mem_unionS.mpr (Or.inl hy)

theorem mem_diffS {l xs : List String} {y : String} :
    y ∈ diffS l xs ↔ y ∈ l ∧ y ∉ xs := by
  simp [diffS, List.mem_filter]

theorem length_le_insS {l : List String} {x : String} :
    l.length ≤ (insS l x).length := by
  unfold insS; split <;> simp

theorem length_le_unionS {l xs : List String} :
    l.length ≤ (unionS l xs).length := by
  induction xs generalizing l with
  | nil => exact le_refl _
  | cons x xs ih =>
    exact le_trans length_le_insS (@ih (insS l x))

theorem insS_eq_of_length {l : List String} {x : String}
    (h : (insS l x).length ≤ l.length) : insS l x = l := by
  by_cases hx : x ∈ l
  · simp [insS, hx]
  · exfalso; simp [insS, hx] at h

theorem unionS_eq_of_length {l xs : List String}
    (h : (unionS l xs).length ≤ l.length) : unionS l xs = l := by
  induction xs generalizing l with
  | nil => rfl
  | cons x xs ih =>
    have hred : unionS l (x :: xs) = unionS (insS l x) xs := rfl
    rw [hred] at h
    have h1 : l.length ≤ (insS l x).length := length_le_insS
    have h2 : (insS l x).length ≤ (unionS (insS l x) xs).length := length_le_unionS
    have hx : insS l x = l := insS_eq_of_length (by omega)
    rw [hred, hx]
    rw [hx] at h
    exact ih h

theorem nodup_insS {l : List String} {x : String} (h : l.Nodup) :
    (insS l x).Nodup := by
  unfold insS; split
  · exact h
  · simpa [List.nodup_append] using ⟨h, by assumption⟩

theorem nodup_unionS {l xs : List String} (h : l.Nodup) :
    (unionS l xs).Nodup := by
  induction xs generalizing l with
  | nil => exact h
  | cons x xs ih => exact ih (nodup_insS h)

/-! ### Concrete grammars used by the counterexamples and witnesses -/

/-- Placeholder grammar value (never the result of a successful run). -/
def defaultGrammar : GrammarData :=
  ⟨[], [], [], "", "", fun _ => [], fun _ => []⟩

/-- Placeholder parser value. -/
def defaultParser : Parser := ⟨defaultGrammar, [], [], []⟩

/-- Extract the parser of a successful `fit`. -/
def FitRes.getP (d : Parser) : FitRes → Parser
  | .ok p => p
  | _ => d

/-- The grammar S -> a with terminal alphabet {a}. -/
def gAG : GrammarData :=
  (grammarInit ["S"] ["a"] [⟨"S", ["a"]⟩] "S").getD defaultGrammar

/-- The recognizer `fit` builds for `gAG`. -/
def pAG : Parser := (fit gAG 100 100).getP defaultParser

/-- The grammar S -> a whose declared terminal alphabet is {a, $}. -/
def gDolG : GrammarData :=
  (grammarInit ["S"] ["a", dollar] [⟨"S", ["a"]⟩] "S").getD defaultGrammar

/-- The recognizer `fit` builds for `gDolG`. -/
def pDolG : Parser := (fit gDolG 100 100).getP defaultParser

/-- The augmented rule list shared by `gAG` and `gDolG`. -/
def rulesDol : List Rule := [⟨augName "S", ["S"]⟩, ⟨"S", ["a"]⟩]

/-- Sentential forms reachable from [S] under `rulesDol`: only [S] and
[a], so in particular the word a$ is not derivable. -/
theorem derivesDol_cases {β : List String} (h : Derives rulesDol ["S"] β) :
    β = ["S"] ∨ β = ["a"] := by
  induction h with
  | refl => exact Or.inl rfl
  | step r β' γ hr h ih =>
    have hr2 : r = Rule.mk (augName "S") ["S"] ∨ r = Rule.mk "S" ["a"] := by
      simpa [rulesDol] using hr
    rcases hr2 with rfl | rfl
    · exfalso
      have hm : augName "S" ∈ β' ++ augName "S" :: γ := by simp
      rcases ih with h1 | h1
      · rw [h1] at hm
        have h2 : augName "S" = "S" := by simpa using hm
        exact absurd h2 (by decide)
      · rw [h1] at hm
        have h2 : augName "S" = "a" := by simpa using hm
        exact absurd h2 (by decide)
    · rcases ih with h1 | h1
      · rcases β' with _ | ⟨b, bs⟩
        · have hγ : γ = [] := by simpa using h1
          subst hγ
          exact Or.inr rfl
        · exfalso
          have hl := congrArg List.length h1
          simp at hl
      · exfalso
        have hm : "S" ∈ β' ++ "S" :: γ := by simp
        rw [h1] at hm
        simp at hm

/-- C1 [code_bug]: the word a$ consists only of declared terminals of
`gDolG`, `fit` accepts the grammar, `predict` answers true, yet a$ is not
derivable from the start symbol — `predict` disagrees with membership in
L(G), contradicting its own contract. -/
theorem c1_predict_accepts_word_outside_language :
    fit gDolG 100 100 = FitRes.ok pDolG ∧
    (∀ x ∈ ["a", dollar], x ∈ gDolG.terminals) ∧
    predict pDolG ["a", dollar] 20 = PR.acc true ∧
    ¬ Derives gDolG.rules [gDolG.start_symbol] ["a", dollar] := by
  refine ⟨rfl, by decide, by decide, ?_⟩
  intro hd
  have hrules : gDolG.rules = rulesDol := by decide
  have hstart : gDolG.start_symbol = "S" := by decide
  rw [hrules, hstart] at hd
  rcases derivesDol_cases hd with h | h <;> exact absurd h (by decide)

/-- C2 [counterexample]: grammar construction succeeds without any error
on a grammar whose start symbol is not a declared nonterminal, and on a
grammar whose synthesised augmented start name is already declared. -/
theorem c2_construction_accepts_invalid_grammars :
    (grammarInit ["A"] ["s"] [⟨"A", ["s"]⟩] "s").isSome = true ∧
    "s" ∉ ["A"] ∧
    (grammarInit ["S", augName "S"] ["a"] [⟨"S", ["a"]⟩] "S").isSome = true ∧
    augName "S" ∈ ["S", augName "S"] :=
  ⟨by decide, by decide, by decide, by decide⟩

/-- C4 [code_bug]: on the grammar S -> a with T = {a}, the input a$
contains the symbol $ outside T, yet `predict` returns true rather than
false. -/
theorem c4_predict_accepts_word_with_unknown_symbol :
    fit gAG 100 100 = FitRes.ok pAG ∧
    dollar ∉ gAG.terminals ∧ dollar ∈ ["a", dollar] ∧
    predict pAG ["a", dollar] 20 = PR.acc true :=
  ⟨rfl, by decide, by decide, by decide⟩

/-- C6 [counterexample]: after constructing the grammar S -> a, looking
up `$` in the FIRST dict raises `KeyError` (modelled as `none`): FIRST is
not defined on the end-marker. -/
theorem c6_first_undefined_on_dollar :
    (grammarInit ["S"] ["a"] [⟨"S", ["a"]⟩] "S").map
      (fun g => dGet (g.non_terminals ++ g.terminals) g.firstMap dollar) =
    some none := by decide

/-! ### The reduce step of `predict` (C5) -/

theorem popLoop_eq_drop :
    ∀ (rs : List String) (st : List Nat), rs.length < st.length →
      popLoop rs st = some (st.drop rs.length)
  | [], st, _ => rfl
  | _ :: rs, st, h => by
    match st, h with
    | a :: b :: tl, h =>
      have : rs.length < (b :: tl).length := by
        simp at h ⊢; omega
      simpa [popLoop] using popLoop_eq_drop rs (b :: tl) this

/-- C5: in a `predict` step whose ACTION entry is `reduce (left, right)`
and whose stack is deeper than |right|, exactly |right| states are popped
(none for an ε-production), GOTO is consulted at the new top: an absent
entry returns false, a present entry is pushed, and the cursor `idx` is
unchanged. -/
theorem c5_reduce_step (P : Parser) (n : Nat) (stack : List Nat)
    (word : List String) (idx state : Nat) (rest : List Nat)
    (row : List (String × Action)) (left : String) (right : List String)
    (s2 : Nat) (tl : List Nat) (grow : List (String × Nat))
    (hst : stack = state :: rest)
    (hrow : P.action_table.get? state = some row)
    (hact : alookup row (word.getD idx dollar) = some (.reduce left right))
    (hlen : right.length < stack.length)
    (hdrop : stack.drop right.length = s2 :: tl)
    (hgrow : P.goto_table.get? s2 = some grow) :
    predictLoop P (n + 1) stack word idx =
      match alookup grow left with
      | none => PR.acc false
      | some t => predictLoop P n (t :: s2 :: tl) word idx := by
  subst hst
  have hpop : popLoop right (state :: rest) = some (s2 :: tl) := by
    rw [popLoop_eq_drop right (state :: rest) hlen, hdrop]
  simp only [predictLoop, hrow, hact, hpop, hgrow]

/-- Witness for C5 at a concrete reduce configuration of the parser for
S -> a. -/
theorem c5_reduce_step_witness :
    predictLoop pAG (5 + 1) [2, 0] ["a", dollar] 1 =
      match alookup [("S", 1)] "S" with
      | none => PR.acc false
      | some t => predictLoop pAG 5 (t :: 0 :: []) ["a", dollar] 1 :=
  c5_reduce_step pAG 5 [2, 0] ["a", dollar] 1 2 [0]
    [(dollar, Action.reduce "S" ["a"])] "S" ["a"] 0 [] [("S", 1)]
    rfl (by decide) (by decide) (by decide) rfl (by decide)

/-! ### Lemmas on the FIRST fixpoint computation -/

theorem upd_self (m : SymMap) (k : String) : upd m k (m k) = m := by
  funext s
  by_cases h : s = k <;> simp [upd, h]

theorem upd_eval_self (m : SymMap) (k : String) (v : List String) :
    upd m k v k = v := by simp [upd]

theorem upd_eval_ne (m : SymMap) (k : String) (v : List String) {s : String}
    (h : s ≠ k) : upd m k v s = m s := by simp [upd, h]

/-- `rhsFirst` only rewrites the entry of `left`. -/
theorem rhsFirst_untouched {dom : List String} {left : String} :
    ∀ {rs : List String} {m m1 : SymMap},
      rhsFirst dom left rs m = some m1 → ∀ s, s ≠ left → m1 s = m s := by
  intro rs
  induction rs with
  | nil =>
    intro m m1 h s hs
    simp only [rhsFirst] at h
    rw [← Option.some_inj.mp h, upd_eval_ne _ _ _ hs]
  | cons sym rest ih =>
    intro m m1 h s hs
    simp only [rhsFirst] at h
    cases hget : dGet dom m sym with
    | none => rw [hget] at h; exact absurd h (by simp)
    | some fs =>
      rw [hget] at h
      simp only at h
      by_cases he : eps ∈ fs
      · rw [if_pos he] at h
        rw [ih h s hs, upd_eval_ne _ _ _ hs]
      · rw [if_neg he] at h
        rw [← Option.some_inj.mp h, upd_eval_ne _ _ _ hs]

/-- `rhsFirst` never removes an element from any entry. -/
theorem rhsFirst_incl {dom : List String} {left : String} :
    ∀ {rs : List String} {m m1 : SymMap},
      rhsFirst dom left rs m = some m1 → ∀ s y, y ∈ m s → y ∈ m1 s := by
  intro rs
  induction rs with
  | nil =>
    intro m m1 h s y hy
    simp only [rhsFirst] at h
    rw [← Option.some_inj.mp h]
    by_cases hs : s = left
    · subst hs; rw [upd_eval_self]; exact subset_insS _ hy
    · rw [upd_eval_ne _ _ _ hs]; exact hy
  | cons sym rest ih =>
    intro m m1 h s y hy
    simp only [rhsFirst] at h
    cases hget : dGet dom m sym with
    | none => rw [hget] at h; exact absurd h (by simp)
    | some fs =>
      rw [hget] at h
      simp only at h
      have hy2 : y ∈ upd m left (unionS (m left) (diffS fs [eps])) s := by
        by_cases hs : s = left
        · subst hs; rw [upd_eval_self]; exact subset_unionS _ hy
        · rw [upd_eval_ne _ _ _ hs]; exact hy
      by_cases he : eps ∈ fs
      · rw [if_pos he] at h
        exact ih h s y hy2
      · rw [if_neg he] at h
        rw [← Option.some_inj.mp h]
        exact hy2

/-- `rhsFirst` succeeds when all the symbols it looks up are keys. -/
theorem rhsFirst_some {dom : List String} {left : String} :
    ∀ {rs : List String} (m : SymMap), (∀ s ∈ rs, s ∈ dom) →
      (rhsFirst dom left rs m).isSome := by
  intro rs
  induction rs with
  | nil => intro m _; simp [rhsFirst]
  | cons sym rest ih =>
    intro m hdom
    have hsym : sym ∈ dom := hdom sym (by simp)
    simp only [rhsFirst, dGet, if_pos hsym]
    by_cases he : eps ∈ m sym
    · simpa [he] using ih _ (fun s hs => hdom s (by simp [hs]))
    · simp [he]

/-- The entry of `left` never shrinks under `rhsFirst`. -/
theorem rhsFirst_length_mono {dom : List String} {left : String} :
    ∀ {rs : List String} {m m1 : SymMap},
      rhsFirst dom left rs m = some m1 → (m left).length ≤ (m1 left).length := by
  intro rs
  induction rs with
  | nil =>
    intro m m1 h
    rw [← Option.some_inj.mp h, upd_eval_self]
    exact length_le_insS
  | cons sym rest ih =>
    intro m m1 h
    simp only [rhsFirst] at h
    cases hget : dGet dom m sym with
    | none => rw [hget] at h; exact absurd h (by simp)
    | some fs =>
      rw [hget] at h
      simp only at h
      have h1 : (m left).length ≤
          (upd m left (unionS (m left) (diffS fs [eps])) left).length := by
        rw [upd_eval_self]; exact length_le_unionS
      by_cases he : eps ∈ fs
      · rw [if_pos he] at h
        exact le_trans h1 (ih h)
      · rw [if_neg he] at h
        rw [← Option.some_inj.mp h]
        exact h1

/-- If the entry of `left` did not grow, `rhsFirst` changed nothing. -/
theorem rhsFirst_eq_of_length {dom : List String} {left : String} :
    ∀ {rs : List String} {m m1 : SymMap},
      rhsFirst dom left rs m = some m1 →
      (m1 left).length ≤ (m left).length → m1 = m := by
  intro rs
  induction rs with
  | nil =>
    intro m m1 h hle
    have he := Option.some_inj.mp h
    rw [← he, upd_eval_self] at hle
    rw [← he, insS_eq_of_length hle, upd_self]
  | cons sym rest ih =>
    intro m m1 h hle
    simp only [rhsFirst] at h
    cases hget : dGet dom m sym with
    | none => rw [hget] at h; exact absurd h (by simp)
    | some fs =>
      rw [hget] at h
      simp only at h
      by_cases he : eps ∈ fs
      · rw [if_pos he] at h
        have h2 : (upd m left (unionS (m left) (diffS fs [eps])) left).length ≤
            (m left).length := by
          calc _ ≤ (m1 left).length := rhsFirst_length_mono h
          _ ≤ _ := hle
        rw [upd_eval_self] at h2
        have h3 : unionS (m left) (diffS fs [eps]) = m left := unionS_eq_of_length h2
        rw [h3, upd_self] at h
        exact ih h hle
      · rw [if_neg he] at h
        have he2 := Option.some_inj.mp h
        rw [← he2, upd_eval_self] at hle
        rw [← he2, unionS_eq_of_length hle, upd_self]

theorem dGet_eq {dom : List String} {m : SymMap} {s : String} {fs : List String}
    (h : dGet dom m s = some fs) : s ∈ dom ∧ fs = m s := by
  by_cases hs : s ∈ dom
  · refine ⟨hs, ?_⟩
    simp only [dGet, if_pos hs, Option.some.injEq] at h
    exact h.symm
  · simp [dGet, hs] at h

/-- Shape of a successful `firstRuleStep`. -/
theorem firstRuleStep_decomp {dom : List String} {r : Rule} {m : SymMap}
    {c : Bool} {m1 : SymMap} {c1 : Bool}
    (h : firstRuleStep dom (m, c) r = some (m1, c1)) :
    r.left ∈ dom ∧
    (if r.right.isEmpty then some (upd m r.left (insS (m r.left) eps))
     else rhsFirst dom r.left r.right m) = some m1 ∧
    c1 = (c || decide ((m r.left).length < (m1 r.left).length)) := by
  by_cases hl : r.left ∈ dom
  · have hget : dGet dom m r.left = some (m r.left) := by simp [dGet, hl]
    simp only [firstRuleStep] at h
    rw [hget] at h
    simp only at h
    cases hif : (if r.right.isEmpty then some (upd m r.left (insS (m r.left) eps))
        else rhsFirst dom r.left r.right m) with
    | none => rw [hif] at h; exact absurd h (by simp)
    | some m2 =>
      rw [hif] at h
      simp only [Option.some.injEq, Prod.mk.injEq] at h
      obtain ⟨h1, h2⟩ := h
      subst h1
      exact ⟨hl, rfl, h2.symm⟩
  · have hget : dGet dom m r.left = none := by simp [dGet, hl]
    simp only [firstRuleStep] at h
    rw [hget] at h
    exact absurd h (by simp)

/-- `firstRuleStep` only rewrites the entry of the rule's left side. -/
theorem firstRuleStep_untouched {dom : List String} {r : Rule} {m : SymMap}
    {c : Bool} {m1 : SymMap} {c1 : Bool}
    (h : firstRuleStep dom (m, c) r = some (m1, c1)) :
    ∀ s, s ≠ r.left → m1 s = m s := by
  intro s hs
  obtain ⟨-, h2, -⟩ := firstRuleStep_decomp h
  by_cases hre : r.right.isEmpty
  · rw [if_pos hre] at h2
    rw [← Option.some_inj.mp h2, upd_eval_ne _ _ _ hs]
  · rw [if_neg hre] at h2
    exact rhsFirst_untouched h2 s hs

/-- `firstRuleStep` never removes an element. -/
theorem firstRuleStep_incl {dom : List String} {r : Rule} {m : SymMap}
    {c : Bool} {m1 : SymMap} {c1 : Bool}
    (h : firstRuleStep dom (m, c) r = some (m1, c1)) :
    ∀ s y, y ∈ m s → y ∈ m1 s := by
  intro s y hy
  obtain ⟨-, h2, -⟩ := firstRuleStep_decomp h
  by_cases hre : r.right.isEmpty
  · rw [if_pos hre] at h2
    rw [← Option.some_inj.mp h2]
    by_cases hs : s = r.left
    · subst hs; rw [upd_eval_self]; exact subset_insS _ hy
    · rw [upd_eval_ne _ _ _ hs]; exact hy
  · rw [if_neg hre] at h2
    exact rhsFirst_incl h2 s y hy

/-- No entry shrinks under `firstRuleStep`. -/
theorem firstRuleStep_lenmono {dom : List String} {r : Rule} {m : SymMap}
    {c : Bool} {m1 : SymMap} {c1 : Bool}
    (h : firstRuleStep dom (m, c) r = some (m1, c1)) :
    ∀ s, (m s).length ≤ (m1 s).length := by
  intro s
  by_cases hs : s = r.left
  · subst hs
    obtain ⟨-, h2, -⟩ := firstRuleStep_decomp h
    by_cases hre : r.right.isEmpty
    · rw [if_pos hre] at h2
      rw [← Option.some_inj.mp h2, upd_eval_self]
      exact length_le_insS
    · rw [if_neg hre] at h2
      exact rhsFirst_length_mono h2
  · rw [firstRuleStep_untouched h s hs]

/-- `firstRuleStep` succeeds when the rule's symbols are keys. -/
theorem firstRuleStep_some {dom : List String} {r : Rule}
    (hl : r.left ∈ dom) (hr : ∀ s ∈ r.right, s ∈ dom) (m : SymMap) (c : Bool) :
    (firstRuleStep dom (m, c) r).isSome := by
  simp only [firstRuleStep, dGet, if_pos hl]
  by_cases hre : r.right.isEmpty
  · simp [hre]
  · rw [if_neg hre]
    have := @rhsFirst_some dom r.left r.right m hr
    cases hrhs : rhsFirst dom r.left r.right m with
    | none => rw [hrhs] at this; exact absurd this (by simp)
    | some m2 => simp [hrhs]

/-- A step reporting no change changed nothing. -/
theorem firstRuleStep_false {dom : List String} {r : Rule} {m : SymMap}
    {c : Bool} {m1 : SymMap}
    (h : firstRuleStep dom (m, c) r = some (m1, false)) :
    c = false ∧ m1 = m := by
  obtain ⟨-, h2, h3⟩ := firstRuleStep_decomp h
  rcases Bool.or_eq_false_iff.mp h3.symm with ⟨hc, hgrow⟩
  refine ⟨hc, ?_⟩
  have hle : (m1 r.left).length ≤ (m r.left).length := by
    simp only [decide_eq_false_iff_not, not_lt] at hgrow
    exact hgrow
  by_cases hre : r.right.isEmpty
  · rw [if_pos hre] at h2
    have he := Option.some_inj.mp h2
    rw [← he, upd_eval_self] at hle
    rw [← he, insS_eq_of_length hle, upd_self]
  · rw [if_neg hre] at h2
    exact rhsFirst_eq_of_length h2 hle

/-- A step reporting a change strictly grew the left entry. -/
theorem firstRuleStep_growth {dom : List String} {r : Rule} {m : SymMap}
    {m1 : SymMap}
    (h : firstRuleStep dom (m, false) r = some (m1, true)) :
    r.left ∈ dom ∧ (m r.left).length < (m1 r.left).length := by
  obtain ⟨hl, -, h3⟩ := firstRuleStep_decomp h
  rw [Bool.false_or] at h3
  exact ⟨hl, of_decide_eq_true h3.symm⟩

/-! ### Pass- and loop-level lemmas for `compute_first` -/

/-- Total size of the dict over a list of keys. -/
def sumLen (d : List String) (m : SymMap) : Nat :=
  (d.map (fun s => (m s).length)).sum

theorem sumLen_mono {d : List String} {m m1 : SymMap}
    (h : ∀ s, (m s).length ≤ (m1 s).length) : sumLen d m ≤ sumLen d m1 := by
  induction d with
  | nil => exact le_refl _
  | cons x d ih =>
    simp only [sumLen, List.map_cons, List.sum_cons] at *
    exact Nat.add_le_add (h x) ih

theorem sumLen_strict {d : List String} {m m1 : SymMap} {x : String}
    (h : ∀ s, (m s).length ≤ (m1 s).length) (hx : x ∈ d)
    (hs : (m x).length < (m1 x).length) : sumLen d m < sumLen d m1 := by
  induction d with
  | nil => simp at hx
  | cons y d ih =>
    simp only [sumLen, List.map_cons, List.sum_cons]
    rcases List.mem_cons.mp hx with rfl | hx2
    · exact Nat.add_lt_add_of_lt_of_le hs (sumLen_mono h)
    · exact Nat.add_lt_add_of_le_of_lt (h y) (ih hx2)

theorem firstFold_incl {dom : List String} :
    ∀ {rules : List Rule} {m : SymMap} {c : Bool} {m1 : SymMap} {c1 : Bool},
      rules.foldlM (firstRuleStep dom) (m, c) = some (m1, c1) →
      ∀ s y, y ∈ m s → y ∈ m1 s := by
  intro rules
  induction rules with
  | nil =>
    intro m c m1 c1 h s y hy
    simp only [List.foldlM_nil, Option.pure_def, Option.some.injEq, Prod.mk.injEq] at h
    rw [← h.1]; exact hy
  | cons r rules ih =>
    intro m c m1 c1 h s y hy
    rw [List.foldlM_cons] at h
    cases hstep : firstRuleStep dom (m, c) r with
    | none => rw [hstep] at h; exact absurd h (by simp)
    | some a =>
      rw [hstep] at h
      simp only [Option.bind_eq_bind, Option.some_bind] at h
      exact ih h s y (firstRuleStep_incl hstep s y hy)

theorem firstFold_lenmono {dom : List String} :
    ∀ {rules : List Rule} {m : SymMap} {c : Bool} {m1 : SymMap} {c1 : Bool},
      rules.foldlM (firstRuleStep dom) (m, c) = some (m1, c1) →
      ∀ s, (m s).length ≤ (m1 s).length := by
  intro rules
  induction rules with
  | nil =>
    intro m c m1 c1 h s
    simp only [List.foldlM_nil, Option.pure_def, Option.some.injEq, Prod.mk.injEq] at h
    rw [← h.1]
  | cons r rules ih =>
    intro m c m1 c1 h s
    rw [List.foldlM_cons] at h
    cases hstep : firstRuleStep dom (m, c) r with
    | none => rw [hstep] at h; exact absurd h (by simp)
    | some a =>
      rw [hstep] at h
      simp only [Option.bind_eq_bind, Option.some_bind] at h
      exact le_trans (firstRuleStep_lenmono hstep s) (ih h s)

theorem firstFold_some {dom : List String} :
    ∀ {rules : List Rule},
      (∀ r ∈ rules, r.left ∈ dom ∧ ∀ s ∈ r.right, s ∈ dom) →
      ∀ (m : SymMap) (c : Bool),
        (rules.foldlM (firstRuleStep dom) (m, c)).isSome := by
  intro rules
  induction rules with
  | nil => intro _ m c; simp
  | cons r rules ih =>
    intro hdecl m c
    rw [List.foldlM_cons]
    have h1 := firstRuleStep_some (hdecl r (by simp)).1 (hdecl r (by simp)).2 m c
    cases hstep : firstRuleStep dom (m, c) r with
    | none => rw [hstep] at h1; exact absurd h1 (by simp)
    | some a =>
      simp only [Option.bind_eq_bind, Option.some_bind]
      exact ih (fun r hr => hdecl r (by simp [hr])) a.1 a.2

theorem firstFold_false {dom : List String} :
    ∀ {rules : List Rule} {m : SymMap} {c : Bool} {m1 : SymMap},
      rules.foldlM (firstRuleStep dom) (m, c) = some (m1, false) →
      c = false ∧ m1 = m := by
  intro rules
  induction rules with
  | nil =>
    intro m c m1 h
    simp only [List.foldlM_nil, Option.pure_def, Option.some.injEq, Prod.mk.injEq] at h
    exact ⟨h.2, h.1.symm⟩
  | cons r rules ih =>
    intro m c m1 h
    rw [List.foldlM_cons] at h
    cases hstep : firstRuleStep dom (m, c) r with
    | none => rw [hstep] at h; exact absurd h (by simp)
    | some a =>
      rw [hstep] at h
      simp only [Option.bind_eq_bind, Option.some_bind] at h
      obtain ⟨hc2, hm2⟩ := ih h
      have ha : firstRuleStep dom (m, c) r = some (a.1, false) := by
        rw [hstep, ← hc2]
      obtain ⟨hc, hm⟩ := firstRuleStep_false ha
      exact ⟨hc, by rw [hm2, hm]⟩

theorem firstFold_growth {dom d : List String} (hd : ∀ s ∈ dom, s ∈ d) :
    ∀ {rules : List Rule} {m : SymMap} {m1 : SymMap},
      rules.foldlM (firstRuleStep dom) (m, false) = some (m1, true) →
      sumLen d m < sumLen d m1 := by
  intro rules
  induction rules with
  | nil =>
    intro m m1 h
    simp at h
  | cons r rules ih =>
    intro m m1 h
    rw [List.foldlM_cons] at h
    cases hstep : firstRuleStep dom (m, false) r with
    | none => rw [hstep] at h; exact absurd h (by simp)
    | some a =>
      rw [hstep] at h
      simp only [Option.bind_eq_bind, Option.some_bind] at h
      rcases a with ⟨m2, c2⟩
      cases c2 with
      | false =>
        obtain ⟨-, hm⟩ := firstRuleStep_false hstep
        subst hm
        exact ih h
      | true =>
        obtain ⟨hl, hgrow⟩ := firstRuleStep_growth hstep
        have h1 : sumLen d m < sumLen d m2 :=
          sumLen_strict (firstRuleStep_lenmono hstep) (hd _ hl) hgrow
        have h2 : sumLen d m2 ≤ sumLen d m1 :=
          sumLen_mono (firstFold_lenmono h)
        omega

/-- Generic invariant preservation along a `compute_first` fold. -/
theorem firstFold_inv {dom : List String} {P : SymMap → Prop} :
    ∀ {rules : List Rule},
      (∀ r ∈ rules, ∀ {m : SymMap} {c : Bool} {m1 : SymMap} {c1 : Bool},
        P m → firstRuleStep dom (m, c) r = some (m1, c1) → P m1) →
      ∀ {m : SymMap} {c : Bool} {m1 : SymMap} {c1 : Bool},
        rules.foldlM (firstRuleStep dom) (m, c) = some (m1, c1) → P m → P m1 := by
  intro rules
  induction rules with
  | nil =>
    intro _ m c m1 c1 h hP
    simp only [List.foldlM_nil, Option.pure_def, Option.some.injEq, Prod.mk.injEq] at h
    rw [← h.1]; exact hP
  | cons r rules ih =>
    intro hpres m c m1 c1 h hP
    rw [List.foldlM_cons] at h
    cases hstep : firstRuleStep dom (m, c) r with
    | none => rw [hstep] at h; exact absurd h (by simp)
    | some a =>
      rw [hstep] at h
      simp only [Option.bind_eq_bind, Option.some_bind] at h
      exact ih (fun r2 hr2 => hpres r2 (by simp [hr2])) h
        (hpres r (by simp) hP hstep)

/-- The result of `firstLoop` is a fixpoint of `firstPass`. -/
theorem firstLoop_fix {dom : List String} {rules : List Rule} :
    ∀ {n : Nat} {m m1 : SymMap},
      firstLoop dom rules n m = some m1 →
      firstPass dom rules m1 = some (m1, false) := by
  intro n
  induction n with
  | zero => intro m m1 h; exact absurd h (by simp [firstLoop])
  | succ n ih =>
    intro m m1 h
    simp only [firstLoop] at h
    cases hp : firstPass dom rules m with
    | none => rw [hp] at h; exact absurd h (by simp)
    | some a =>
      rw [hp] at h
      rcases a with ⟨m2, ch⟩
      cases ch with
      | true => exact ih (by simpa using h)
      | false =>
        simp only [Bool.false_eq_true, if_false, Option.some.injEq] at h
        subst h
        obtain ⟨-, hm⟩ := firstFold_false hp
        rw [← hm] at hp
        exact hp

/-- Generic invariant preservation along `firstLoop`. -/
theorem firstLoop_inv {dom : List String} {rules : List Rule} {P : SymMap → Prop}
    (hpres : ∀ r ∈ rules, ∀ {m : SymMap} {c : Bool} {m1 : SymMap} {c1 : Bool},
      P m → firstRuleStep dom (m, c) r = some (m1, c1) → P m1) :
    ∀ {n : Nat} {m m1 : SymMap},
      firstLoop dom rules n m = some m1 → P m → P m1 := by
  intro n
  induction n with
  | zero => intro m m1 h; exact absurd h (by simp [firstLoop])
  | succ n ih =>
    intro m m1 h hP
    simp only [firstLoop] at h
    cases hp : firstPass dom rules m with
    | none => rw [hp] at h; exact absurd h (by simp)
    | some a =>
      rw [hp] at h
      rcases a with ⟨m2, ch⟩
      have hP2 : P m2 := firstFold_inv hpres hp hP
      cases ch with
      | true => exact ih (by simpa using h) hP2
      | false =>
        simp only [Bool.false_eq_true, if_false, Option.some.injEq] at h
        subst h
        exact hP2

/-- `firstLoop` succeeds when every pass succeeds and the dict sizes are
bounded: each change strictly increases the total size. -/
theorem firstLoop_some {dom : List String} {rules : List Rule}
    (hdecl : ∀ r ∈ rules, r.left ∈ dom ∧ ∀ s ∈ r.right, s ∈ dom)
    {P : SymMap → Prop} {cap : Nat}
    (hpres : ∀ r ∈ rules, ∀ {m : SymMap} {c : Bool} {m1 : SymMap} {c1 : Bool},
      P m → firstRuleStep dom (m, c) r = some (m1, c1) → P m1)
    (hbound : ∀ m, P m → sumLen dom.dedup m ≤ cap) :
    ∀ (n : Nat) (m : SymMap), P m → cap < n + sumLen dom.dedup m →
      (firstLoop dom rules n m).isSome := by
  intro n
  induction n with
  | zero =>
    intro m hP hcap
    have := hbound m hP
    omega
  | succ n ih =>
    intro m hP hcap
    simp only [firstLoop]
    have hs : (firstPass dom rules m).isSome := firstFold_some hdecl m false
    cases hp : firstPass dom rules m with
    | none => rw [hp] at hs; exact absurd hs (by simp)
    | some a =>
      rcases a with ⟨m2, ch⟩
      cases ch with
      | false => simp
      | true =>
        simp only [if_true]
        have hP2 : P m2 := firstFold_inv hpres hp hP
        have hgrow : sumLen dom.dedup m < sumLen dom.dedup m2 :=
          firstFold_growth (fun s hs2 => List.mem_dedup.mpr hs2) hp
        exact ih m2 hP2 (by omega)

/-! ### Success of `compute_first` on declared grammars -/

/-- All entries duplicate-free and inside `bound`. -/
def MapInv (bound : List String) (m : SymMap) : Prop :=
  (∀ s, (m s).Nodup) ∧ (∀ s y, y ∈ m s → y ∈ bound)

theorem rhsFirst_mapInv {dom : List String} {left : String} {bound : List String}
    (hb : eps ∈ bound) :
    ∀ {rs : List String} {m m1 : SymMap},
      rhsFirst dom left rs m = some m1 → MapInv bound m → MapInv bound m1 := by
  intro rs
  induction rs with
  | nil =>
    intro m m1 h hI
    rw [← Option.some_inj.mp h]
    constructor
    · intro s
      by_cases hs : s = left
      · subst hs; rw [upd_eval_self]; exact nodup_insS (hI.1 _)
      · rw [upd_eval_ne _ _ _ hs]; exact hI.1 s
    · intro s y hy
      by_cases hs : s = left
      · subst hs
        rw [upd_eval_self] at hy
        rcases mem_insS.mp hy with hy2 | rfl
        · exact hI.2 _ _ hy2
        · exact hb
      · rw [upd_eval_ne _ _ _ hs] at hy
        exact hI.2 _ _ hy
  | cons sym rest ih =>
    intro m m1 h hI
    simp only [rhsFirst] at h
    cases hget : dGet dom m sym with
    | none => rw [hget] at h; exact absurd h (by simp)
    | some fs =>
      rw [hget] at h
      simp only at h
      obtain ⟨-, hfs⟩ := dGet_eq hget
      have hI2 : MapInv bound (upd m left (unionS (m left) (diffS fs [eps]))) := by
        constructor
        · intro s
          by_cases hs : s = left
          · subst hs; rw [upd_eval_self]; exact nodup_unionS (hI.1 _)
          · rw [upd_eval_ne _ _ _ hs]; exact hI.1 s
        · intro s y hy
          by_cases hs : s = left
          · subst hs
            rw [upd_eval_self] at hy
            rcases mem_unionS.mp hy with hy2 | hy2
            · exact hI.2 _ _ hy2
            · exact hI.2 sym y (hfs ▸ (mem_diffS.mp hy2).1)
          · rw [upd_eval_ne _ _ _ hs] at hy
            exact hI.2 _ _ hy
      by_cases he : eps ∈ fs
      · rw [if_pos he] at h
        exact ih h hI2
      · rw [if_neg he] at h
        rw [← Option.some_inj.mp h]
        exact hI2

theorem firstRuleStep_mapInv {dom : List String} {r : Rule} {bound : List String}
    (hb : eps ∈ bound) {m : SymMap} {c : Bool} {m1 : SymMap} {c1 : Bool}
    (hI : MapInv bound m) (h : firstRuleStep dom (m, c) r = some (m1, c1)) :
    MapInv bound m1 := by
  obtain ⟨-, h2, -⟩ := firstRuleStep_decomp h
  by_cases hre : r.right.isEmpty
  · rw [if_pos hre] at h2
    rw [← Option.some_inj.mp h2]
    constructor
    · intro s
      by_cases hs : s = r.left
      · subst hs; rw [upd_eval_self]; exact nodup_insS (hI.1 _)
      · rw [upd_eval_ne _ _ _ hs]; exact hI.1 s
    · intro s y hy
      by_cases hs : s = r.left
      · subst hs
        rw [upd_eval_self] at hy
        rcases mem_insS.mp hy with hy2 | rfl
        · exact hI.2 _ _ hy2
        · exact hb
      · rw [upd_eval_ne _ _ _ hs] at hy
        exact hI.2 _ _ hy
  · rw [if_neg hre] at h2
    exact rhsFirst_mapInv hb h2 hI

/-- A bound on the total size of a dict whose entries are duplicate-free
subsets of `bound`. -/
theorem sumLen_le_cap {d : List String} {m : SymMap} {bound : List String}
    (hI : MapInv bound m) :
    sumLen d m ≤ d.length * bound.dedup.length := by
  induction d with
  | nil => simp [sumLen]
  | cons x d ih =>
    simp only [sumLen, List.map_cons, List.sum_cons, List.length_cons]
    have hx : (m x).length ≤ bound.dedup.length := by
      have h1 : (m x).length = (m x).toFinset.card :=
        (List.toFinset_card_of_nodup (hI.1 x)).symm
      have h2 : (m x).toFinset ⊆ bound.toFinset := by
        intro y hy
        exact List.mem_toFinset.mpr (hI.2 x y (List.mem_toFinset.mp hy))
      have h3 : bound.toFinset.card = bound.dedup.length := List.card_toFinset bound
      calc (m x).length = (m x).toFinset.card := h1
        _ ≤ bound.toFinset.card := Finset.card_le_card h2
        _ = bound.dedup.length := h3
    have := ih
    calc (m x).length + sumLen d m ≤ bound.dedup.length + d.length * bound.dedup.length :=
          Nat.add_le_add hx ih
      _ = (d.length + 1) * bound.dedup.length := by ring

/-- `compute_first` succeeds whenever every symbol a rule mentions is
declared. -/
theorem compute_first_isSome {nts ts : List String} {rules : List Rule}
    (hdecl : ∀ r ∈ rules, r.left ∈ nts ++ ts ∧ ∀ s ∈ r.right, s ∈ nts ++ ts) :
    (compute_first nts ts rules).isSome := by
  have hinit : MapInv (ts ++ [eps]) (fun s => if s ∈ ts then [s] else []) := by
    constructor
    · intro s
      by_cases hs : s ∈ ts <;> simp [hs]
    · intro s y hy
      by_cases hs : s ∈ ts
      · simp only [hs, if_true] at hy
        simp only [List.mem_singleton] at hy
        subst hy
        simp [hs]
      · simp [hs] at hy
  apply firstLoop_some hdecl
    (fun r _ {m} {c} {m1} {c1} hI h => firstRuleStep_mapInv (by simp) hI h)
    (fun m hI => sumLen_le_cap hI)
    _ _ hinit
  have hle : (ts ++ [eps]).dedup.length ≤ ts.dedup.length + 1 := by
    have h1 : (ts ++ [eps]).toFinset.card = (ts ++ [eps]).dedup.length :=
      List.card_toFinset _
    have h2 : (ts ++ [eps]).toFinset = ts.toFinset ∪ [eps].toFinset := by
      simp
    have h3 : (ts.toFinset ∪ [eps].toFinset).card ≤ ts.toFinset.card + 1 := by
      have := Finset.card_union_le ts.toFinset ([eps].toFinset)
      simpa using this
    have h4 : ts.toFinset.card = ts.dedup.length := List.card_toFinset _
    have h2c : (ts ++ [eps]).toFinset.card = (ts.toFinset ∪ [eps].toFinset).card := by
      rw [h2]
    omega
  have hcap : (nts ++ ts).dedup.length * (ts ++ [eps]).dedup.length <
      firstFuel (nts ++ ts) ts := by
    have h1 : (nts ++ ts).dedup.length * (ts ++ [eps]).dedup.length ≤
        (nts ++ ts).dedup.length * (ts.dedup.length + 1) :=
      Nat.mul_le_mul_left _ hle
    have h2 : (nts ++ ts).dedup.length * (ts.dedup.length + 1) ≤
        (nts ++ ts).dedup.length * (ts.dedup.length + 2) :=
      Nat.mul_le_mul_left _ (by omega)
    simp only [firstFuel]
    omega
  omega

/-! ### Success of `compute_follow` on declared grammars -/

theorem first_sequence_some {dom : List String} {m : SymMap} :
    ∀ {l : List String}, (∀ s ∈ l, s ∈ dom) → (first_sequence dom m l).isSome := by
  intro l
  induction l with
  | nil => intro _; simp [first_sequence]
  | cons s rest ih =>
    intro hl
    have hs : s ∈ dom := hl s (by simp)
    simp only [first_sequence, dGet, if_pos hs]
    by_cases he : eps ∈ m s
    · have := ih (fun x hx => hl x (by simp [hx]))
      cases hfs : first_sequence dom m rest with
      | none => rw [hfs] at this; exact absurd this (by simp)
      | some r => simp [he, hfs]
    · simp [he]

theorem first_sequence_bound {dom : List String} {m : SymMap} {bound : List String}
    (hB : ∀ s y, y ∈ m s → y ∈ bound) (hbe : eps ∈ bound) :
    ∀ {l fb : List String}, first_sequence dom m l = some fb →
      ∀ y ∈ fb, y ∈ bound := by
  intro l
  induction l with
  | nil =>
    intro fb h y hy
    simp only [first_sequence, Option.some.injEq] at h
    rw [← h] at hy
    simp only [List.mem_singleton] at hy
    subst hy
    exact hbe
  | cons s rest ih =>
    intro fb h y hy
    simp only [first_sequence] at h
    cases hget : dGet dom m s with
    | none => rw [hget] at h; exact absurd h (by simp)
    | some fs =>
      rw [hget] at h
      obtain ⟨-, hfs⟩ := dGet_eq hget
      simp only at h
      by_cases he : eps ∈ fs
      · rw [if_pos he] at h
        cases hrest : first_sequence dom m rest with
        | none => rw [hrest] at h; exact absurd h (by simp)
        | some r =>
          rw [hrest] at h
          simp only [Option.some.injEq] at h
          rw [← h] at hy
          rcases mem_unionS.mp hy with hy2 | hy2
          · exact hB s y (hfs ▸ (mem_diffS.mp hy2).1)
          · exact ih hrest y hy2
      · rw [if_neg he] at h
        simp only [Option.some.injEq] at h
        rw [← h] at hy
        exact hB s y (hfs ▸ (mem_diffS.mp hy).1)

/-- `followPosStep` only rewrites the entry of `B`. -/
theorem followPosStep_untouched {nts dom : List String} {first : SymMap}
    {left B : String} {rest : List String} {fo fo2 : SymMap}
    (h : followPosStep nts dom first left B rest fo = some fo2) :
    ∀ s, s ≠ B → fo2 s = fo s := by
  intro s hs
  simp only [followPosStep] at h
  by_cases hre : rest.isEmpty
  · rw [if_pos hre] at h
    cases hget : dGet nts fo left with
    | none => rw [hget] at h; exact absurd h (by simp)
    | some fl =>
      rw [hget] at h
      simp only [Option.some.injEq] at h
      rw [← h, upd_eval_ne _ _ _ hs]
  · rw [if_neg hre] at h
    cases hfb : first_sequence dom first rest with
    | none => rw [hfb] at h; exact absurd h (by simp)
    | some fb =>
      rw [hfb] at h
      simp only at h
      by_cases he : eps ∈ fb
      · rw [if_pos he] at h
        cases hget : dGet nts (upd fo B (unionS (fo B) (diffS fb [eps]))) left with
        | none => rw [hget] at h; exact absurd h (by simp)
        | some fl =>
          rw [hget] at h
          simp only [Option.some.injEq] at h
          rw [← h, upd_eval_ne _ _ _ hs, upd_eval_ne _ _ _ hs]
      · rw [if_neg he] at h
        simp only [Option.some.injEq] at h
        rw [← h, upd_eval_ne _ _ _ hs]

/-- `followPosStep` never removes an element. -/
theorem followPosStep_incl {nts dom : List String} {first : SymMap}
    {left B : String} {rest : List String} {fo fo2 : SymMap}
    (h : followPosStep nts dom first left B rest fo = some fo2) :
    ∀ s y, y ∈ fo s → y ∈ fo2 s := by
  intro s y hy
  by_cases hs : s = B
  · subst hs
    simp only [followPosStep] at h
    by_cases hre : rest.isEmpty
    · rw [if_pos hre] at h
      cases hget : dGet nts fo left with
      | none => rw [hget] at h; exact absurd h (by simp)
      | some fl =>
        rw [hget] at h
        simp only [Option.some.injEq] at h
        rw [← h, upd_eval_self]
        exact subset_unionS _ hy
    · rw [if_neg hre] at h
      cases hfb : first_sequence dom first rest with
      | none => rw [hfb] at h; exact absurd h (by simp)
      | some fb =>
        rw [hfb] at h
        simp only at h
        have hy1 : y ∈ upd fo s (unionS (fo s) (diffS fb [eps])) s := by
          rw [upd_eval_self]; exact subset_unionS _ hy
        by_cases he : eps ∈ fb
        · rw [if_pos he] at h
          cases hget : dGet nts (upd fo s (unionS (fo s) (diffS fb [eps]))) left with
          | none => rw [hget] at h; exact absurd h (by simp)
          | some fl =>
            rw [hget] at h
            simp only [Option.some.injEq] at h
            rw [← h, upd_eval_self]
            exact subset_unionS _ hy1
        · rw [if_neg he] at h
          rw [← Option.some_inj.mp h]
          exact hy1
  · rw [followPosStep_untouched h s hs]
    exact hy

/-- No entry shrinks under `followPosStep`. -/
theorem followPosStep_lenmono {nts dom : List String} {first : SymMap}
    {left B : String} {rest : List String} {fo fo2 : SymMap}
    (h : followPosStep nts dom first left B rest fo = some fo2) :
    ∀ s, (fo s).length ≤ (fo2 s).length := by
  intro s
  by_cases hs : s = B
  · subst hs
    simp only [followPosStep] at h
    by_cases hre : rest.isEmpty
    · rw [if_pos hre] at h
      cases hget : dGet nts fo left with
      | none => rw [hget] at h; exact absurd h (by simp)
      | some fl =>
        rw [hget] at h
        simp only [Option.some.injEq] at h
        rw [← h, upd_eval_self]
        exact length_le_unionS
    · rw [if_neg hre] at h
      cases hfb : first_sequence dom first rest with
      | none => rw [hfb] at h; exact absurd h (by simp)
      | some fb =>
        rw [hfb] at h
        simp only at h
        have h1 : (fo s).length ≤
            (upd fo s (unionS (fo s) (diffS fb [eps])) s).length := by
          rw [upd_eval_self]; exact length_le_unionS
        by_cases he : eps ∈ fb
        · rw [if_pos he] at h
          cases hget : dGet nts (upd fo s (unionS (fo s) (diffS fb [eps]))) left with
          | none => rw [hget] at h; exact absurd h (by simp)
          | some fl =>
            rw [hget] at h
            simp only [Option.some.injEq] at h
            rw [← h, upd_eval_self]
            exact le_trans h1 length_le_unionS
        · rw [if_neg he] at h
          rw [← Option.some_inj.mp h]
          exact h1
  · rw [followPosStep_untouched h s hs]

/-- If the entry of `B` did not grow, `followPosStep` changed nothing. -/
theorem followPosStep_eq_of_length {nts dom : List String} {first : SymMap}
    {left B : String} {rest : List String} {fo fo2 : SymMap}
    (h : followPosStep nts dom first left B rest fo = some fo2)
    (hle : (fo2 B).length ≤ (fo B).length) : fo2 = fo := by
  simp only [followPosStep] at h
  by_cases hre : rest.isEmpty
  · rw [if_pos hre] at h
    cases hget : dGet nts fo left with
    | none => rw [hget] at h; exact absurd h (by simp)
    | some fl =>
      rw [hget] at h
      have he := Option.some_inj.mp h
      rw [← he, upd_eval_self] at hle
      rw [← he, unionS_eq_of_length hle, upd_self]
  · rw [if_neg hre] at h
    cases hfb : first_sequence dom first rest with
    | none => rw [hfb] at h; exact absurd h (by simp)
    | some fb =>
      rw [hfb] at h
      simp only at h
      by_cases hee : eps ∈ fb
      · rw [if_pos hee] at h
        cases hget : dGet nts (upd fo B (unionS (fo B) (diffS fb [eps]))) left with
        | none => rw [hget] at h; exact absurd h (by simp)
        | some fl =>
          rw [hget] at h
          have he := Option.some_inj.mp h
          have hb1 : (fo B).length ≤
              (unionS (fo B) (diffS fb [eps])).length := length_le_unionS
          have hb2 : (fo2 B) = unionS (upd fo B (unionS (fo B) (diffS fb [eps])) B) fl := by
            rw [← he, upd_eval_self]
          have hb3 : (upd fo B (unionS (fo B) (diffS fb [eps])) B).length ≤
              (fo2 B).length := by
            rw [hb2]; exact length_le_unionS
          rw [upd_eval_self] at hb3
          have hu1 : unionS (fo B) (diffS fb [eps]) = fo B :=
            unionS_eq_of_length (by omega)
          rw [hu1, upd_self] at he hb2
          have hu2 : unionS (fo B) fl = fo B :=
            unionS_eq_of_length (by rw [← hb2]; exact hle)
          rw [hu2] at he
          rw [upd_self] at he
          exact he.symm
      · rw [if_neg hee] at h
        have he := Option.some_inj.mp h
        rw [← he, upd_eval_self] at hle
        rw [← he, unionS_eq_of_length hle, upd_self]

/-- `followPosStep` succeeds when `left` is a follow key and the suffix
symbols are first keys. -/
theorem followPosStep_some {nts dom : List String} {first : SymMap}
    {left B : String} {rest : List String} (fo : SymMap)
    (hleft : left ∈ nts) (hrest : ∀ s ∈ rest, s ∈ dom) :
    (followPosStep nts dom first left B rest fo).isSome := by
  simp only [followPosStep]
  by_cases hre : rest.isEmpty
  · simp [hre, dGet, hleft]
  · rw [if_neg hre]
    have hfs := @first_sequence_some dom first rest hrest
    cases hfb : first_sequence dom first rest with
    | none => rw [hfb] at hfs; exact absurd hfs (by simp)
    | some fb =>
      simp only
      by_cases he : eps ∈ fb
      · simp [he, dGet, hleft]
      · simp [he]

/-- `followPosStep` preserves duplicate-freedom and the follow bound. -/
theorem followPosStep_mapInv {nts dom : List String} {first : SymMap}
    {left B : String} {rest : List String} {fo fo2 : SymMap}
    {fbound bound : List String}
    (hfirst : ∀ s y, y ∈ first s → y ∈ fbound) (hfe : eps ∈ fbound)
    (hmove : ∀ y, y ∈ fbound → y ≠ eps → y ∈ bound)
    (h : followPosStep nts dom first left B rest fo = some fo2)
    (hI : MapInv bound fo) : MapInv bound fo2 := by
  simp only [followPosStep] at h
  by_cases hre : rest.isEmpty
  · rw [if_pos hre] at h
    cases hget : dGet nts fo left with
    | none => rw [hget] at h; exact absurd h (by simp)
    | some fl =>
      rw [hget] at h
      obtain ⟨-, hfl⟩ := dGet_eq hget
      rw [← Option.some_inj.mp h]
      constructor
      · intro s
        by_cases hs : s = B
        · subst hs; rw [upd_eval_self]; exact nodup_unionS (hI.1 _)
        · rw [upd_eval_ne _ _ _ hs]; exact hI.1 s
      · intro s y hy
        by_cases hs : s = B
        · subst hs
          rw [upd_eval_self] at hy
          rcases mem_unionS.mp hy with hy2 | hy2
          · exact hI.2 _ _ hy2
          · exact hI.2 left y (hfl ▸ hy2)
        · rw [upd_eval_ne _ _ _ hs] at hy
          exact hI.2 _ _ hy
  · rw [if_neg hre] at h
    cases hfb : first_sequence dom first rest with
    | none => rw [hfb] at h; exact absurd h (by simp)
    | some fb =>
      rw [hfb] at h
      simp only at h
      have hI1 : MapInv bound (upd fo B (unionS (fo B) (diffS fb [eps]))) := by
        constructor
        · intro s
          by_cases hs : s = B
          · subst hs; rw [upd_eval_self]; exact nodup_unionS (hI.1 _)
          · rw [upd_eval_ne _ _ _ hs]; exact hI.1 s
        · intro s y hy
          by_cases hs : s = B
          · subst hs
            rw [upd_eval_self] at hy
            rcases mem_unionS.mp hy with hy2 | hy2
            · exact hI.2 _ _ hy2
            · obtain ⟨hyf, hyne⟩ := mem_diffS.mp hy2
              exact hmove y (first_sequence_bound hfirst hfe hfb y hyf)
                (by simpa using hyne)
          · rw [upd_eval_ne _ _ _ hs] at hy
            exact hI.2 _ _ hy
      by_cases hee : eps ∈ fb
      · rw [if_pos hee] at h
        cases hget : dGet nts (upd fo B (unionS (fo B) (diffS fb [eps]))) left with
        | none => rw [hget] at h; exact absurd h (by simp)
        | some fl =>
          rw [hget] at h
          obtain ⟨-, hfl⟩ := dGet_eq hget
          rw [← Option.some_inj.mp h]
          constructor
          · intro s
            by_cases hs : s = B
            · subst hs; rw [upd_eval_self]; exact nodup_unionS (hI1.1 _)
            · rw [upd_eval_ne _ _ _ hs]; exact hI1.1 s
          · intro s y hy
            by_cases hs : s = B
            · subst hs
              rw [upd_eval_self] at hy
              rcases mem_unionS.mp hy with hy2 | hy2
              · exact hI1.2 _ _ hy2
              · exact hI1.2 left y (hfl ▸ hy2)
            · rw [upd_eval_ne _ _ _ hs] at hy
              exact hI1.2 _ _ hy
      · rw [if_neg hee] at h
        rw [← Option.some_inj.mp h]
        exact hI1

theorem followPositions_incl {nts dom : List String} {first : SymMap} {left : String} :
    ∀ {l : List String} {fo : SymMap} {c : Bool} {fo1 : SymMap} {c1 : Bool},
      followPositions nts dom first left l fo c = some (fo1, c1) →
      ∀ s y, y ∈ fo s → y ∈ fo1 s := by
  intro l
  induction l with
  | nil =>
    intro fo c fo1 c1 h s y hy
    simp only [followPositions, Option.some.injEq, Prod.mk.injEq] at h
    rw [← h.1]; exact hy
  | cons B rest ih =>
    intro fo c fo1 c1 h s y hy
    simp only [followPositions] at h
    by_cases hB : B ∈ nts
    · rw [if_pos hB] at h
      cases hstep : followPosStep nts dom first left B rest fo with
      | none => rw [hstep] at h; exact absurd h (by simp)
      | some fo2 =>
        rw [hstep] at h
        exact ih h s y (followPosStep_incl hstep s y hy)
    · rw [if_neg hB] at h
      exact ih h s y hy

theorem followPositions_lenmono {nts dom : List String} {first : SymMap} {left : String} :
    ∀ {l : List String} {fo : SymMap} {c : Bool} {fo1 : SymMap} {c1 : Bool},
      followPositions nts dom first left l fo c = some (fo1, c1) →
      ∀ s, (fo s).length ≤ (fo1 s).length := by
  intro l
  induction l with
  | nil =>
    intro fo c fo1 c1 h s
    simp only [followPositions, Option.some.injEq, Prod.mk.injEq] at h
    rw [← h.1]
  | cons B rest ih =>
    intro fo c fo1 c1 h s
    simp only [followPositions] at h
    by_cases hB : B ∈ nts
    · rw [if_pos hB] at h
      cases hstep : followPosStep nts dom first left B rest fo with
      | none => rw [hstep] at h; exact absurd h (by simp)
      | some fo2 =>
        rw [hstep] at h
        exact le_trans (followPosStep_lenmono hstep s) (ih h s)
    · rw [if_neg hB] at h
      exact ih h s

theorem followPositions_some {nts dom : List String} {first : SymMap} {left : String}
    (hleft : left ∈ nts) :
    ∀ {l : List String}, (∀ s ∈ l, s ∈ dom) → ∀ (fo : SymMap) (c : Bool),
      (followPositions nts dom first left l fo c).isSome := by
  intro l
  induction l with
  | nil => intro _ fo c; simp [followPositions]
  | cons B rest ih =>
    intro hl fo c
    simp only [followPositions]
    by_cases hB : B ∈ nts
    · rw [if_pos hB]
      have hs := @followPosStep_some nts dom first left B rest fo hleft
        (fun s hs => hl s (by simp [hs]))
      cases hstep : followPosStep nts dom first left B rest fo with
      | none => rw [hstep] at hs; exact absurd hs (by simp)
      | some fo2 => exact ih (fun s hs2 => hl s (by simp [hs2])) fo2 _
    · rw [if_neg hB]
      exact ih (fun s hs2 => hl s (by simp [hs2])) fo c

theorem followPositions_false {nts dom : List String} {first : SymMap} {left : String} :
    ∀ {l : List String} {fo : SymMap} {c : Bool} {fo1 : SymMap},
      followPositions nts dom first left l fo c = some (fo1, false) →
      c = false ∧ fo1 = fo := by
  intro l
  induction l with
  | nil =>
    intro fo c fo1 h
    simp only [followPositions, Option.some.injEq, Prod.mk.injEq] at h
    exact ⟨h.2, h.1.symm⟩
  | cons B rest ih =>
    intro fo c fo1 h
    simp only [followPositions] at h
    by_cases hB : B ∈ nts
    · rw [if_pos hB] at h
      cases hstep : followPosStep nts dom first left B rest fo with
      | none => rw [hstep] at h; exact absurd h (by simp)
      | some fo2 =>
        rw [hstep] at h
        obtain ⟨hc2, hfo⟩ := ih h
        rcases Bool.or_eq_false_iff.mp hc2 with ⟨hc, hgrow⟩
        have hle : (fo2 B).length ≤ (fo B).length := by
          simp only [decide_eq_false_iff_not, not_lt] at hgrow
          exact hgrow
        have := followPosStep_eq_of_length hstep hle
        exact ⟨hc, by rw [hfo, this]⟩
    · rw [if_neg hB] at h
      exact ih h

theorem followPositions_growth {nts dom : List String} {first : SymMap}
    {left : String} {d : List String} (hd : ∀ s ∈ nts, s ∈ d) :
    ∀ {l : List String} {fo : SymMap} {fo1 : SymMap},
      followPositions nts dom first left l fo false = some (fo1, true) →
      sumLen d fo < sumLen d fo1 := by
  intro l
  induction l with
  | nil =>
    intro fo fo1 h
    simp [followPositions] at h
  | cons B rest ih =>
    intro fo fo1 h
    simp only [followPositions] at h
    by_cases hB : B ∈ nts
    · rw [if_pos hB] at h
      cases hstep : followPosStep nts dom first left B rest fo with
      | none => rw [hstep] at h; exact absurd h (by simp)
      | some fo2 =>
        rw [hstep] at h
        simp only at h
        by_cases hgrow : (fo B).length < (fo2 B).length
        · have h1 : sumLen d fo < sumLen d fo2 :=
            sumLen_strict (followPosStep_lenmono hstep) (hd B hB) hgrow
          have h2 : sumLen d fo2 ≤ sumLen d fo1 :=
            sumLen_mono (followPositions_lenmono h)
          omega
        · have heq : fo2 = fo := followPosStep_eq_of_length hstep (by omega)
          subst heq
          have hc : (false || decide ((fo2 B).length < (fo2 B).length)) = false := by
            simp
          rw [hc] at h
          exact ih h
    · rw [if_neg hB] at h
      exact ih h

theorem followPositions_inv {nts dom : List String} {first : SymMap} {left : String}
    {P : SymMap → Prop}
    (hpres : ∀ {B : String} {rest : List String} {fo fo2 : SymMap}, P fo →
      followPosStep nts dom first left B rest fo = some fo2 → P fo2) :
    ∀ {l : List String} {fo : SymMap} {c : Bool} {fo1 : SymMap} {c1 : Bool},
      followPositions nts dom first left l fo c = some (fo1, c1) → P fo → P fo1 := by
  intro l
  induction l with
  | nil =>
    intro fo c fo1 c1 h hP
    simp only [followPositions, Option.some.injEq, Prod.mk.injEq] at h
    rw [← h.1]; exact hP
  | cons B rest ih =>
    intro fo c fo1 c1 h hP
    simp only [followPositions] at h
    by_cases hB : B ∈ nts
    · rw [if_pos hB] at h
      cases hstep : followPosStep nts dom first left B rest fo with
      | none => rw [hstep] at h; exact absurd h (by simp)
      | some fo2 =>
        rw [hstep] at h
        exact ih h (hpres hP hstep)
    · rw [if_neg hB] at h
      exact ih h hP

/-! Generic fold lemmas for a `(map, changed)` step over the rules. -/

theorem foldSB_some {step : (SymMap × Bool) → Rule → Option (SymMap × Bool)} :
    ∀ {rules : List Rule},
      (∀ r ∈ rules, ∀ (m : SymMap) (c : Bool), (step (m, c) r).isSome) →
      ∀ (m : SymMap) (c : Bool), (rules.foldlM step (m, c)).isSome := by
  intro rules
  induction rules with
  | nil => intro _ m c; simp
  | cons r rules ih =>
    intro hstep m c
    rw [List.foldlM_cons]
    have h1 := hstep r (by simp) m c
    cases hs : step (m, c) r with
    | none => rw [hs] at h1; exact absurd h1 (by simp)
    | some a =>
      simp only [Option.bind_eq_bind, Option.some_bind]
      exact ih (fun r2 hr2 => hstep r2 (by simp [hr2])) a.1 a.2

theorem foldSB_false {step : (SymMap × Bool) → Rule → Option (SymMap × Bool)}
    (hstep : ∀ (r : Rule) {m : SymMap} {c : Bool} {m1 : SymMap},
      step (m, c) r = some (m1, false) → c = false ∧ m1 = m) :
    ∀ {rules : List Rule} {m : SymMap} {c : Bool} {m1 : SymMap},
      rules.foldlM step (m, c) = some (m1, false) → c = false ∧ m1 = m := by
  intro rules
  induction rules with
  | nil =>
    intro m c m1 h
    simp only [List.foldlM_nil, Option.pure_def, Option.some.injEq, Prod.mk.injEq] at h
    exact ⟨h.2, h.1.symm⟩
  | cons r rules ih =>
    intro m c m1 h
    rw [List.foldlM_cons] at h
    cases hs : step (m, c) r with
    | none => rw [hs] at h; exact absurd h (by simp)
    | some a =>
      rw [hs] at h
      simp only [Option.bind_eq_bind, Option.some_bind] at h
      obtain ⟨hc2, hm2⟩ := ih h
      have ha : step (m, c) r = some (a.1, false) := by rw [hs, ← hc2]
      obtain ⟨hc, hm⟩ := hstep r ha
      exact ⟨hc, by rw [hm2, hm]⟩

theorem foldSB_lenmono {step : (SymMap × Bool) → Rule → Option (SymMap × Bool)}
    (hstep : ∀ (r : Rule) {m : SymMap} {c : Bool} {m1 : SymMap} {c1 : Bool},
      step (m, c) r = some (m1, c1) → ∀ s, (m s).length ≤ (m1 s).length) :
    ∀ {rules : List Rule} {m : SymMap} {c : Bool} {m1 : SymMap} {c1 : Bool},
      rules.foldlM step (m, c) = some (m1, c1) →
      ∀ s, (m s).length ≤ (m1 s).length := by
  intro rules
  induction rules with
  | nil =>
    intro m c m1 c1 h s
    simp only [List.foldlM_nil, Option.pure_def, Option.some.injEq, Prod.mk.injEq] at h
    rw [← h.1]
  | cons r rules ih =>
    intro m c m1 c1 h s
    rw [List.foldlM_cons] at h
    cases hs : step (m, c) r with
    | none => rw [hs] at h; exact absurd h (by simp)
    | some a =>
      rw [hs] at h
      simp only [Option.bind_eq_bind, Option.some_bind] at h
      exact le_trans (hstep r hs s) (ih h s)

theorem foldSB_growth {step : (SymMap × Bool) → Rule → Option (SymMap × Bool)}
    {d : List String}
    (hmono : ∀ (r : Rule) {m : SymMap} {c : Bool} {m1 : SymMap} {c1 : Bool},
      step (m, c) r = some (m1, c1) → ∀ s, (m s).length ≤ (m1 s).length)
    (hfalse : ∀ (r : Rule) {m : SymMap} {c : Bool} {m1 : SymMap},
      step (m, c) r = some (m1, false) → c = false ∧ m1 = m)
    (hgrow : ∀ (r : Rule) {m : SymMap} {m1 : SymMap},
      step (m, false) r = some (m1, true) → sumLen d m < sumLen d m1) :
    ∀ {rules : List Rule} {m : SymMap} {m1 : SymMap},
      rules.foldlM step (m, false) = some (m1, true) →
      sumLen d m < sumLen d m1 := by
  intro rules
  induction rules with
  | nil =>
    intro m m1 h
    simp at h
  | cons r rules ih =>
    intro m m1 h
    rw [List.foldlM_cons] at h
    cases hs : step (m, false) r with
    | none => rw [hs] at h; exact absurd h (by simp)
    | some a =>
      rw [hs] at h
      simp only [Option.bind_eq_bind, Option.some_bind] at h
      rcases a with ⟨m2, c2⟩
      cases c2 with
      | false =>
        obtain ⟨-, hm⟩ := hfalse r hs
        subst hm
        exact ih h
      | true =>
        have h1 : sumLen d m < sumLen d m2 := hgrow r hs
        have h2 : sumLen d m2 ≤ sumLen d m1 :=
          sumLen_mono (foldSB_lenmono hmono h)
        omega

theorem foldSB_inv {step : (SymMap × Bool) → Rule → Option (SymMap × Bool)}
    {P : SymMap → Prop}
    (hpres : ∀ (r : Rule) {m : SymMap} {c : Bool} {m1 : SymMap} {c1 : Bool},
      P m → step (m, c) r = some (m1, c1) → P m1) :
    ∀ {rules : List Rule} {m : SymMap} {c : Bool} {m1 : SymMap} {c1 : Bool},
      rules.foldlM step (m, c) = some (m1, c1) → P m → P m1 := by
  intro rules
  induction rules with
  | nil =>
    intro m c m1 c1 h hP
    simp only [List.foldlM_nil, Option.pure_def, Option.some.injEq, Prod.mk.injEq] at h
    rw [← h.1]; exact hP
  | cons r rules ih =>
    intro m c m1 c1 h hP
    rw [List.foldlM_cons] at h
    cases hs : step (m, c) r with
    | none => rw [hs] at h; exact absurd h (by simp)
    | some a =>
      rw [hs] at h
      simp only [Option.bind_eq_bind, Option.some_bind] at h
      exact ih h (hpres r hP hs)

theorem followLoop_some {nts dom : List String} {first : SymMap} {rules : List Rule}
    {P : SymMap → Prop} {cap : Nat}
    (hsome : ∀ fo, (followPass nts dom first rules fo).isSome)
    (hinv : ∀ {fo fo1 : SymMap} {c : Bool}, P fo →
      followPass nts dom first rules fo = some (fo1, c) → P fo1)
    (hgrow : ∀ {fo fo1 : SymMap}, followPass nts dom first rules fo = some (fo1, true) →
      sumLen nts.dedup fo < sumLen nts.dedup fo1)
    (hbound : ∀ fo, P fo → sumLen nts.dedup fo ≤ cap) :
    ∀ (n : Nat) (fo : SymMap), P fo → cap < n + sumLen nts.dedup fo →
      (followLoop nts dom first rules n fo).isSome := by
  intro n
  induction n with
  | zero =>
    intro fo hP hcap
    have := hbound fo hP
    omega
  | succ n ih =>
    intro fo hP hcap
    simp only [followLoop]
    have hs := hsome fo
    cases hp : followPass nts dom first rules fo with
    | none => rw [hp] at hs; exact absurd hs (by simp)
    | some a =>
      rcases a with ⟨fo2, ch⟩
      cases ch with
      | false => simp
      | true =>
        simp only [if_true]
        exact ih fo2 (hinv hP hp) (by have := hgrow hp; omega)

theorem dedup_append_singleton_le (l : List String) (x : String) :
    (l ++ [x]).dedup.length ≤ l.dedup.length + 1 := by
  have h1 : (l ++ [x]).toFinset.card = (l ++ [x]).dedup.length :=
    List.card_toFinset _
  have h2 : (l ++ [x]).toFinset = l.toFinset ∪ [x].toFinset := by simp
  have h2c : (l ++ [x]).toFinset.card = (l.toFinset ∪ [x].toFinset).card := by
    rw [h2]
  have h3 : (l.toFinset ∪ [x].toFinset).card ≤ l.toFinset.card + 1 := by
    have := Finset.card_union_le l.toFinset ([x].toFinset)
    simpa using this
  have h4 : l.toFinset.card = l.dedup.length := List.card_toFinset _
  omega

/-- The FIRST dict a successful `compute_first` returns is duplicate-free
and bounded by T ∪ {ε}. -/
theorem compute_first_mapInv {nts ts : List String} {rules : List Rule} {f : SymMap}
    (h : compute_first nts ts rules = some f) : MapInv (ts ++ [eps]) f := by
  apply firstLoop_inv
    (fun r _ {m} {c} {m1} {c1} hI hs => firstRuleStep_mapInv (by simp) hI hs) h
  constructor
  · intro s
    by_cases hs : s ∈ ts <;> simp [hs]
  · intro s y hy
    by_cases hs : s ∈ ts
    · simp only [hs, if_true] at hy
      simp only [List.mem_singleton] at hy
      subst hy
      simp [hs]
    · simp [hs] at hy

/-- `compute_follow` succeeds whenever every rule's left side is a
follow key, every right-hand symbol is a first key, and the given FIRST
dict is bounded. -/
theorem compute_follow_isSome {nts ts : List String} {rules : List Rule}
    {first : SymMap} {aug : String}
    (hlefts : ∀ r ∈ rules, r.left ∈ nts)
    (hrights : ∀ r ∈ rules, ∀ s ∈ r.right, s ∈ nts ++ ts)
    (hfirstB : ∀ s y, y ∈ first s → y ∈ ts ++ [eps]) :
    (compute_follow nts ts rules first aug).isSome := by
  have hmove : ∀ y, y ∈ ts ++ [eps] → y ≠ eps → y ∈ ts ++ [dollar] := by
    intro y hy hne
    rcases List.mem_append.mp hy with hy2 | hy2
    · exact List.mem_append.mpr (Or.inl hy2)
    · simp only [List.mem_singleton] at hy2
      exact absurd hy2 hne
  have hinit : MapInv (ts ++ [dollar]) (fun s => if s = aug then [dollar] else []) := by
    constructor
    · intro s
      by_cases hs : s = aug <;> simp [hs]
    · intro s y hy
      by_cases hs : s = aug
      · simp only [hs, if_true] at hy
        simp only [List.mem_singleton] at hy
        subst hy
        simp
      · simp [hs] at hy
  have hbnd : ∀ fo : SymMap, MapInv (ts ++ [dollar]) fo →
      sumLen nts.dedup fo ≤ nts.dedup.length * (ts ++ [dollar]).dedup.length :=
    fun fo hP => sumLen_le_cap hP
  have hsome2 : ∀ fo : SymMap, (followPass nts (nts ++ ts) first rules fo).isSome := by
    intro fo
    exact foldSB_some
      (fun r hr m c => followPositions_some (hlefts r hr) (hrights r hr) m c) fo false
  have hinv2 : ∀ {fo fo1 : SymMap} {c : Bool}, MapInv (ts ++ [dollar]) fo →
      followPass nts (nts ++ ts) first rules fo = some (fo1, c) →
      MapInv (ts ++ [dollar]) fo1 := by
    intro fo fo1 c hP hp
    refine foldSB_inv ?_ hp hP
    intro r m c2 m1 c1 hP2 hs
    refine followPositions_inv ?_ hs hP2
    intro B rest fo2 fo3 hP3 hstep
    exact followPosStep_mapInv hfirstB (by simp) hmove hstep hP3
  have hgrow2 : ∀ {fo fo1 : SymMap},
      followPass nts (nts ++ ts) first rules fo = some (fo1, true) →
      sumLen nts.dedup fo < sumLen nts.dedup fo1 := by
    intro fo fo1 hp
    refine foldSB_growth ?_ ?_ ?_ hp
    · intro r m c m1 c1 hs s
      exact followPositions_lenmono hs s
    · intro r m c m1 hs
      exact followPositions_false hs
    · intro r m m1 hs
      exact followPositions_growth (fun s hs2 => List.mem_dedup.mpr hs2) hs
  apply followLoop_some hsome2 (fun {fo fo1 c} => hinv2) (fun {fo fo1} => hgrow2)
    hbnd _ _ hinit
  have hle : (ts ++ [dollar]).dedup.length ≤ ts.dedup.length + 1 :=
    dedup_append_singleton_le ts dollar
  have h1 : nts.dedup.length * (ts ++ [dollar]).dedup.length ≤
      nts.dedup.length * (ts.dedup.length + 1) :=
    Nat.mul_le_mul_left _ hle
  have h2 : nts.dedup.length * (ts.dedup.length + 1) ≤
      nts.dedup.length * (ts.dedup.length + 3) :=
    Nat.mul_le_mul_left _ (by omega)
  simp only [followFuel]
  omega

/-- C2 [amended]: grammar construction succeeds (raises nothing)
whenever every production's left-hand side is a declared nonterminal,
every right-hand-side symbol is declared, and the start symbol is
declared; no further validation exists. -/
theorem c2_construction_succeeds_when_declared
    (nts ts : List String) (rules : List Rule) (start : String)
    (hlefts : ∀ r ∈ rules, r.left ∈ nts)
    (hrights : ∀ r ∈ rules, ∀ s ∈ r.right, s ∈ nts ++ ts)
    (hstart : start ∈ nts ++ ts) :
    (grammarInit nts ts rules start).isSome := by
  have hsub : ∀ s, s ∈ nts ++ ts → s ∈ insS nts (augName start) ++ ts := by
    intro s hs
    rcases List.mem_append.mp hs with h2 | h2
    · exact List.mem_append.mpr (Or.inl (subset_insS _ h2))
    · exact List.mem_append.mpr (Or.inr h2)
  have hdecl : ∀ r ∈ (Rule.mk (augName start) [start] :: rules),
      r.left ∈ insS nts (augName start) ++ ts ∧
      ∀ s ∈ r.right, s ∈ insS nts (augName start) ++ ts := by
    intro r hr
    rcases List.mem_cons.mp hr with rfl | hr2
    · constructor
      · exact List.mem_append.mpr (Or.inl (mem_insS.mpr (Or.inr rfl)))
      · intro s hs
        simp only [List.mem_singleton] at hs
        subst hs
        exact hsub _ hstart
    · exact ⟨List.mem_append.mpr (Or.inl (subset_insS _ (hlefts r hr2))),
        fun s hs => hsub s (hrights r hr2 s hs)⟩
  have h1 := compute_first_isSome hdecl
  simp only [grammarInit]
  cases hf : compute_first (insS nts (augName start)) ts
      (Rule.mk (augName start) [start] :: rules) with
  | none => rw [hf] at h1; exact absurd h1 (by simp)
  | some f =>
    have hlefts1 : ∀ r ∈ (Rule.mk (augName start) [start] :: rules),
        r.left ∈ insS nts (augName start) := by
      intro r hr
      rcases List.mem_cons.mp hr with rfl | hr2
      · exact mem_insS.mpr (Or.inr rfl)
      · exact subset_insS _ (hlefts r hr2)
    have hrights1 : ∀ r ∈ (Rule.mk (augName start) [start] :: rules),
        ∀ s ∈ r.right, s ∈ insS nts (augName start) ++ ts := by
      intro r hr
      exact (hdecl r hr).2
    have h2 := @compute_follow_isSome (insS nts (augName start)) ts
      (Rule.mk (augName start) [start] :: rules) f (augName start)
      hlefts1 hrights1 (compute_first_mapInv hf).2
    cases hfo : compute_follow (insS nts (augName start)) ts
        (Rule.mk (augName start) [start] :: rules) f (augName start) with
    | none =>
      rw [hfo] at h2
      exact absurd h2 (by simp)
    | some fo => simp [hfo]

/-- Witness for C2's amended claim at a concrete declared grammar. -/
theorem c2_construction_succeeds_witness :
    (grammarInit ["S"] ["a"] [⟨"S", ["a"]⟩] "S").isSome :=
  c2_construction_succeeds_when_declared ["S"] ["a"] [⟨"S", ["a"]⟩] "S"
    (by decide) (by decide) (by decide)

/-! ### Derivation lemmas and the FIRST/nullable correspondence (C7) -/

theorem Derives.trans {rules : List Rule} {α β γ : List String}
    (h1 : Derives rules α β) (h2 : Derives rules β γ) : Derives rules α γ := by
  induction h2 with
  | refl => exact h1
  | step r β' γ' hr h ih => exact Derives.step r β' γ' hr ih

theorem Derives.append_left {rules : List Rule} {α β : List String}
    (δ : List String) (h : Derives rules α β) :
    Derives rules (δ ++ α) (δ ++ β) := by
  induction h with
  | refl => exact Derives.refl _
  | step r β' γ' hr h ih =>
    have := Derives.step r (δ ++ β') γ' hr (by simpa using ih)
    simpa using this

theorem Derives.append_right {rules : List Rule} {α β : List String}
    (δ : List String) (h : Derives rules α β) :
    Derives rules (α ++ δ) (β ++ δ) := by
  induction h with
  | refl => exact Derives.refl _
  | step r β' γ' hr h ih =>
    have := Derives.step r β' (γ' ++ δ) hr (by simpa using ih)
    simpa using this

theorem Derives.append {rules : List Rule} {α1 β1 α2 β2 : List String}
    (h1 : Derives rules α1 β1) (h2 : Derives rules α2 β2) :
    Derives rules (α1 ++ α2) (β1 ++ β2) :=
  Derives.trans (Derives.append_right α2 h1) (Derives.append_left β1 h2)

theorem Derives.rule {rules : List Rule} {r : Rule} (hr : r ∈ rules) :
    Derives rules [r.left] r.right := by
  have := Derives.step r [] [] hr (Derives.refl [r.left])
  simpa using this

theorem derives_nil_of_all {rules : List Rule} :
    ∀ {β : List String}, (∀ x ∈ β, Derives rules [x] []) → Derives rules β [] := by
  intro β
  induction β with
  | nil => intro _; exact Derives.refl _
  | cons x β ih =>
    intro hall
    have h1 : Derives rules ([x] ++ β) ([] ++ []) :=
      Derives.append (hall x (by simp)) (ih (fun y hy => hall y (by simp [hy])))
    simpa using h1

theorem insS_mem_of_eq {l : List String} {x : String} (h : insS l x = l) : x ∈ l := by
  by_cases hx : x ∈ l
  · exact hx
  · exfalso
    rw [insS, if_neg hx] at h
    have := congrArg List.length h
    simp at this

theorem unionS_eq_self {l xs : List String} (h : ∀ y ∈ xs, y ∈ l) :
    unionS l xs = l := by
  induction xs generalizing l with
  | nil => rfl
  | cons x xs ih =>
    have hred : unionS l (x :: xs) = unionS (insS l x) xs := rfl
    rw [hred, insS, if_pos (h x (by simp))]
    exact ih (fun y hy => h y (by simp [hy]))

/-- The pieces of a successful `Grammar.__init__`. -/
theorem grammarInit_parts {nts ts : List String} {rules : List Rule}
    {start : String} {g : GrammarData}
    (hg : grammarInit nts ts rules start = some g) :
    g.non_terminals = insS nts (augName start) ∧ g.terminals = ts ∧
    g.rules = Rule.mk (augName start) [start] :: rules ∧
    g.start_symbol = start ∧ g.augmented_start = augName start ∧
    compute_first (insS nts (augName start)) ts
      (Rule.mk (augName start) [start] :: rules) = some g.firstMap := by
  simp only [grammarInit] at hg
  cases hf : compute_first (insS nts (augName start)) ts
      (Rule.mk (augName start) [start] :: rules) with
  | none => rw [hf] at hg; exact absurd hg (by simp)
  | some f =>
    rw [hf] at hg
    simp only at hg
    cases hfo : compute_follow (insS nts (augName start)) ts
        (Rule.mk (augName start) [start] :: rules) f (augName start) with
    | none => rw [hfo] at hg; exact absurd hg (by simp)
    | some fo =>
      rw [hfo] at hg
      simp only [Option.some.injEq] at hg
      subst hg
      exact ⟨rfl, rfl, rfl, rfl, rfl, rfl⟩

/-- Every step of a fixpoint pass is the identity. -/
theorem firstFold_all_steps {dom : List String} :
    ∀ {rules : List Rule} {m : SymMap},
      rules.foldlM (firstRuleStep dom) (m, false) = some (m, false) →
      ∀ r ∈ rules, firstRuleStep dom (m, false) r = some (m, false) := by
  intro rules
  induction rules with
  | nil => intro m _ r hr; simp at hr
  | cons r0 rules ih =>
    intro m h r hr
    rw [List.foldlM_cons] at h
    cases hs : firstRuleStep dom (m, false) r0 with
    | none => rw [hs] at h; exact absurd h (by simp)
    | some a =>
      rw [hs] at h
      simp only [Option.bind_eq_bind, Option.some_bind] at h
      obtain ⟨hc2, hm2⟩ := firstFold_false h
      have ha : a = (m, false) := by
        rcases a with ⟨a1, a2⟩
        simp only at hc2 hm2
        rw [hc2, hm2]
      subst ha
      rcases List.mem_cons.mp hr with rfl | hr2
      · exact hs
      · exact ih h r hr2

/-- At a fixpoint of `rhsFirst`, exhausting the right side forces ε into
the left entry. -/
theorem rhsFirst_fix {dom : List String} {left : String} :
    ∀ {rs : List String} {m : SymMap},
      rhsFirst dom left rs m = some m → (∀ x ∈ rs, eps ∈ m x) → eps ∈ m left := by
  intro rs
  induction rs with
  | nil =>
    intro m h _
    have he := Option.some_inj.mp h
    have h2 := congrFun he left
    rw [upd_eval_self] at h2
    exact insS_mem_of_eq h2
  | cons sym rest ih =>
    intro m h hall
    simp only [rhsFirst] at h
    cases hget : dGet dom m sym with
    | none => rw [hget] at h; exact absurd h (by simp)
    | some fs =>
      rw [hget] at h
      simp only at h
      obtain ⟨-, hfs⟩ := dGet_eq hget
      have he : eps ∈ fs := hfs ▸ hall sym (by simp)
      rw [if_pos he] at h
      have hincl := rhsFirst_incl h
      have hsub : ∀ y ∈ diffS fs [eps], y ∈ m left := by
        intro y hy
        have h1 : y ∈ upd m left (unionS (m left) (diffS fs [eps])) left := by
          rw [upd_eval_self]
          exact mem_unionS.mpr (Or.inr hy)
        have := hincl left y h1
        exact this
      have hu : unionS (m left) (diffS fs [eps]) = m left := unionS_eq_self hsub
      rw [hu, upd_self] at h
      exact ih h (fun x hx => hall x (by simp [hx]))

/-- The fixpoint property of the FIRST dict: a rule all of whose
right-side symbols carry ε forces ε into its left side. -/
theorem first_fix_rule {dom : List String} {rules : List Rule} {m : SymMap}
    (hfix : firstPass dom rules m = some (m, false)) :
    ∀ r ∈ rules, (∀ x ∈ r.right, eps ∈ m x) → eps ∈ m r.left := by
  intro r hr hall
  have hstep := firstFold_all_steps hfix r hr
  obtain ⟨-, h2, -⟩ := firstRuleStep_decomp hstep
  by_cases hre : r.right.isEmpty
  · rw [if_pos hre] at h2
    have he := Option.some_inj.mp h2
    have := congrFun he r.left
    rw [upd_eval_self] at this
    have hm := insS_mem_of_eq this
    exact hm
  · rw [if_neg hre] at h2
    exact rhsFirst_fix h2 hall

/-- Soundness invariant: an entry that carries ε can derive the empty
word. -/
theorem rhsFirst_soundInv {dom : List String} {left : String} {rules : List Rule} :
    ∀ {rs : List String} {m m1 : SymMap},
      rhsFirst dom left rs m = some m1 →
      (∀ s, eps ∈ m s → Derives rules [s] []) →
      ((∀ x ∈ rs, Derives rules [x] []) → Derives rules [left] []) →
      ∀ s, eps ∈ m1 s → Derives rules [s] [] := by
  intro rs
  induction rs with
  | nil =>
    intro m m1 h hInv himp s hy
    rw [← Option.some_inj.mp h] at hy
    by_cases hs : s = left
    · subst hs
      rw [upd_eval_self] at hy
      rcases mem_insS.mp hy with hy2 | -
      · exact hInv _ hy2
      · exact himp (by simp)
    · rw [upd_eval_ne _ _ _ hs] at hy
      exact hInv _ hy
  | cons sym rest ih =>
    intro m m1 h hInv himp s hy
    simp only [rhsFirst] at h
    cases hget : dGet dom m sym with
    | none => rw [hget] at h; exact absurd h (by simp)
    | some fs =>
      rw [hget] at h
      simp only at h
      obtain ⟨-, hfs⟩ := dGet_eq hget
      have hInv2 : ∀ s2, eps ∈ upd m left (unionS (m left) (diffS fs [eps])) s2 →
          Derives rules [s2] [] := by
        intro s2 hy2
        by_cases hs2 : s2 = left
        · subst hs2
          rw [upd_eval_self] at hy2
          rcases mem_unionS.mp hy2 with hy3 | hy3
          · exact hInv _ hy3
          · exact absurd (mem_diffS.mp hy3).2 (by simp)
        · rw [upd_eval_ne _ _ _ hs2] at hy2
          exact hInv _ hy2
      by_cases he : eps ∈ fs
      · rw [if_pos he] at h
        refine ih h hInv2 ?_ s hy
        intro hall
        exact himp (fun x hx => by
          rcases List.mem_cons.mp hx with rfl | hx2
          · exact hInv x (hfs ▸ he)
          · exact hall x hx2)
      · rw [if_neg he] at h
        rw [← Option.some_inj.mp h] at hy
        exact hInv2 s hy

theorem firstRuleStep_soundInv {dom : List String} {r : Rule} {rules : List Rule}
    (hr : r ∈ rules) {m : SymMap} {c : Bool} {m1 : SymMap} {c1 : Bool}
    (hInv : ∀ s, eps ∈ m s → Derives rules [s] [])
    (h : firstRuleStep dom (m, c) r = some (m1, c1)) :
    ∀ s, eps ∈ m1 s → Derives rules [s] [] := by
  obtain ⟨-, h2, -⟩ := firstRuleStep_decomp h
  have himp : (∀ x ∈ r.right, Derives rules [x] []) → Derives rules [r.left] [] := by
    intro hall
    exact Derives.trans (Derives.rule hr) (derives_nil_of_all hall)
  by_cases hre : r.right.isEmpty
  · rw [if_pos hre] at h2
    intro s hy
    rw [← Option.some_inj.mp h2] at hy
    by_cases hs : s = r.left
    · subst hs
      rw [upd_eval_self] at hy
      rcases mem_insS.mp hy with hy2 | -
      · exact hInv _ hy2
      · exact himp (by
          intro x hx
          rw [List.isEmpty_iff.mp hre] at hx
          simp at hx)
    · rw [upd_eval_ne _ _ _ hs] at hy
      exact hInv _ hy
  · rw [if_neg hre] at h2
    exact rhsFirst_soundInv h2 hInv himp

/-- Backward propagation of ε-membership along a derivation, given the
fixpoint rule property. -/
theorem derives_null_backward {rules : List Rule} {m : SymMap}
    (hrule : ∀ r ∈ rules, (∀ x ∈ r.right, eps ∈ m x) → eps ∈ m r.left)
    {α β : List String} (h : Derives rules α β) :
    (∀ s ∈ β, eps ∈ m s) → ∀ s ∈ α, eps ∈ m s := by
  induction h with
  | refl => exact fun hall => hall
  | step r β' γ' hr h ih =>
    intro hall
    refine ih ?_
    intro s hs
    rcases List.mem_append.mp hs with hs2 | hs2
    · exact hall s (by simp [hs2])
    · rcases List.mem_cons.mp hs2 with rfl | hs3
      · refine hrule r hr ?_
        intro x hx
        exact hall x (by simp [hx])
      · exact hall s (by simp [hs3])

theorem augName_ne_dollar (s : String) : augName s ≠ dollar := by
  intro h
  have hd := congrArg String.data h
  have h1 : (augName s).data = s.data ++ [Char.ofNat 39] := by
    simp [augName, String.singleton]
  have h2 : dollar.data = [Char.ofNat 36] := by decide
  rw [h1, h2] at hd
  rcases hs : s.data with _ | ⟨c, cs⟩
  · rw [hs] at hd
    simp at hd
  · rw [hs] at hd
    have := congrArg List.length hd
    simp at this

/-- C6 [amended]: FIRST maps every declared terminal to the singleton of
itself and never contains ε there; but `$` is not among the FIRST keys,
so its lookup fails. -/
theorem c6_terminal_first_singleton
    (nts ts : List String) (rules : List Rule) (start : String) (g : GrammarData)
    (hg : grammarInit nts ts rules start = some g)
    (hlefts : ∀ r ∈ rules, r.left ∉ ts)
    (haug : augName start ∉ ts)
    (heps : eps ∉ ts) :
    (∀ a ∈ g.terminals, g.firstMap a = [a] ∧ eps ∉ g.firstMap a) ∧
    (dollar ∉ nts → dollar ∉ ts →
      dGet (g.non_terminals ++ g.terminals) g.firstMap dollar = none) := by
  obtain ⟨hnt, hts, hrules, -, -, hf⟩ := grammarInit_parts hg
  have hlefts1 : ∀ r ∈ Rule.mk (augName start) [start] :: rules, r.left ∉ ts := by
    intro r hr
    rcases List.mem_cons.mp hr with rfl | hr2
    · exact haug
    · exact hlefts r hr2
  have hf2 : firstLoop (insS nts (augName start) ++ ts)
      (Rule.mk (augName start) [start] :: rules)
      (firstFuel (insS nts (augName start) ++ ts) ts)
      (fun s => if s ∈ ts then [s] else []) = some g.firstMap := hf
  have hsing : ∀ a ∈ ts, g.firstMap a = [a] := by
    have := firstLoop_inv (P := fun m => ∀ a ∈ ts, m a = [a])
      (fun r hr {m} {c} {m1} {c1} hP hs => by
        intro a ha
        rw [firstRuleStep_untouched hs a
          (fun he => hlefts1 r hr (he ▸ ha)), hP a ha])
      hf2
      (fun a ha => by simp [ha])
    exact this
  constructor
  · intro a ha
    rw [hts] at ha
    refine ⟨hsing a ha, ?_⟩
    rw [hsing a ha]
    intro hin
    simp only [List.mem_singleton] at hin
    exact heps (hin ▸ ha)
  · intro hd1 hd2
    have hnot : dollar ∉ g.non_terminals ++ g.terminals := by
      rw [hnt, hts]
      intro hin
      rcases List.mem_append.mp hin with hin2 | hin2
      · rcases mem_insS.mp hin2 with hin3 | hin3
        · exact hd1 hin3
        · exact augName_ne_dollar start hin3.symm
      · exact hd2 hin2
    simp [dGet, hnot]

/-- Witness for C6's amended claim on the grammar S -> a. -/
theorem c6_terminal_first_witness :
    (∀ a ∈ gAG.terminals, gAG.firstMap a = [a] ∧ eps ∉ gAG.firstMap a) ∧
    (dollar ∉ ["S"] → dollar ∉ ["a"] →
      dGet (gAG.non_terminals ++ gAG.terminals) gAG.firstMap dollar = none) :=
  c6_terminal_first_singleton ["S"] ["a"] [⟨"S", ["a"]⟩] "S" gAG rfl
    (by decide) (by decide) (by decide)

/-- C7: ε lies in FIRST of a nonterminal exactly when the nonterminal
derives the empty word in the augmented grammar. -/
theorem c7_eps_in_first_iff_derives_empty
    (nts ts : List String) (rules : List Rule) (start : String)
    (g : GrammarData) (A : String)
    (hg : grammarInit nts ts rules start = some g)
    (heps : eps ∉ ts) (hA : A ∈ g.non_terminals) :
    eps ∈ g.firstMap A ↔ Derives g.rules [A] [] := by
  obtain ⟨hnt, hts, hrules, -, -, hf⟩ := grammarInit_parts hg
  have hf2 : firstLoop (insS nts (augName start) ++ ts)
      (Rule.mk (augName start) [start] :: rules)
      (firstFuel (insS nts (augName start) ++ ts) ts)
      (fun s => if s ∈ ts then [s] else []) = some g.firstMap := hf
  rw [hrules]
  constructor
  · intro hin
    have hsound := firstLoop_inv
      (P := fun m => ∀ s, eps ∈ m s →
        Derives (Rule.mk (augName start) [start] :: rules) [s] [])
      (fun r hr {m} {c} {m1} {c1} hP hs => firstRuleStep_soundInv hr hP hs)
      hf2
      (fun s hy => by
        by_cases hsin : s ∈ ts
        · simp only [hsin, if_true, List.mem_singleton] at hy
          exact absurd (hy ▸ hsin) heps
        · simp [hsin] at hy)
    exact hsound A hin
  · intro hd
    have hfix : firstPass (insS nts (augName start) ++ ts)
        (Rule.mk (augName start) [start] :: rules) g.firstMap =
        some (g.firstMap, false) := firstLoop_fix hf2
    have hrule := first_fix_rule hfix
    exact derives_null_backward hrule hd (by simp) A (by simp)

/-- The grammar S -> A, A -> aA | ε used as C7 witness. -/
def gEpsG : GrammarData :=
  (grammarInit ["S", "A"] ["a"] [⟨"S", ["A"]⟩, ⟨"A", ["a", "A"]⟩, ⟨"A", []⟩]
    "S").getD defaultGrammar

/-- Witness for C7 at the nonterminal A of a grammar with an
ε-production. -/
theorem c7_eps_in_first_witness :
    eps ∈ gEpsG.firstMap "A" ↔ Derives gEpsG.rules ["A"] [] :=
  c7_eps_in_first_iff_derives_empty ["S", "A"] ["a"]
    [⟨"S", ["A"]⟩, ⟨"A", ["a", "A"]⟩, ⟨"A", []⟩] "S" gEpsG "A" rfl
    (by decide) (by decide)

/-! ### Closure idempotence (C8) -/

/-- One item of a closure-complete set adds nothing: the lookahead
computation succeeds and every generated item is already a member. -/
def SatAt (g : GrammarData) (C : List LR1Item) (it : LR1Item) : Prop :=
  ∀ b, it.next_symbol = some b → b ∈ g.non_terminals →
    ∃ las, lookaheadsOf g it = some las ∧
      ∀ r ∈ g.rules, r.left = b → ∀ la ∈ las, LR1Item.mk r.left r.right 0 la ∈ C

/-- A closure-complete set of items. -/
def Saturated (g : GrammarData) (C : List LR1Item) : Prop :=
  ∀ it ∈ C, SatAt g C it

theorem lasFold_shape (l : String) (rr : List String) :
    ∀ (las : List String) (acc : List LR1Item × List LR1Item),
      ∃ new, las.foldl (fun acc2 la => insItem acc2 ⟨l, rr, 0, la⟩) acc =
        (acc.1 ++ new, acc.2 ++ new) := by
  intro las
  induction las with
  | nil => intro acc; exact ⟨[], by simp⟩
  | cons la las ih =>
    intro acc
    simp only [List.foldl_cons]
    obtain ⟨new, hnew⟩ := ih (insItem acc ⟨l, rr, 0, la⟩)
    by_cases hin : (⟨l, rr, 0, la⟩ : LR1Item) ∈ acc.1
    · exact ⟨new, by rw [hnew]; simp [insItem, hin]⟩
    · refine ⟨⟨l, rr, 0, la⟩ :: new, ?_⟩
      rw [hnew]
      simp [insItem, hin]

theorem genRule_shape (r : Rule) (B : String) (las : List String)
    (acc : List LR1Item × List LR1Item) :
    ∃ new, genRule r B las acc = (acc.1 ++ new, acc.2 ++ new) := by
  unfold genRule
  by_cases hB : r.left = B
  · rw [if_pos hB]
    exact lasFold_shape r.left r.right las acc
  · exact ⟨[], by simp [hB]⟩

theorem genItems_shape (rules : List Rule) (B : String) (las : List String) :
    ∀ (seen adds : List LR1Item),
      ∃ new, genItems rules B las seen adds = (seen ++ new, adds ++ new) := by
  induction rules with
  | nil => intro seen adds; exact ⟨[], by simp [genItems]⟩
  | cons r rules ih =>
    intro seen adds
    have hg : genItems (r :: rules) B las seen adds =
        rules.foldl (fun acc r2 => genRule r2 B las acc) (genRule r B las (seen, adds)) := by
      simp [genItems]
    obtain ⟨n1, hn1⟩ := genRule_shape r B las (seen, adds)
    obtain ⟨n2, hn2⟩ := ih (seen ++ n1) (adds ++ n1)
    refine ⟨n1 ++ n2, ?_⟩
    rw [hg, hn1]
    have : rules.foldl (fun acc r2 => genRule r2 B las acc) (seen ++ n1, adds ++ n1) =
        genItems rules B las (seen ++ n1) (adds ++ n1) := rfl
    rw [this, hn2]
    simp

theorem lasFold_covers (l : String) (rr : List String) :
    ∀ (las : List String) (acc : List LR1Item × List LR1Item) (la : String),
      la ∈ las →
      (⟨l, rr, 0, la⟩ : LR1Item) ∈
        (las.foldl (fun acc2 la2 => insItem acc2 ⟨l, rr, 0, la2⟩) acc).1 := by
  intro las
  induction las with
  | nil => intro acc la h; simp at h
  | cons la0 las ih =>
    intro acc la hla
    simp only [List.foldl_cons]
    rcases List.mem_cons.mp hla with rfl | hla2
    · obtain ⟨new, hnew⟩ := lasFold_shape l rr las (insItem acc ⟨l, rr, 0, la⟩)
      rw [hnew]
      have hmem : (⟨l, rr, 0, la⟩ : LR1Item) ∈ (insItem acc ⟨l, rr, 0, la⟩).1 := by
        by_cases hin : (⟨l, rr, 0, la⟩ : LR1Item) ∈ acc.1 <;> simp [insItem, hin]
      exact List.mem_append.mpr (Or.inl hmem)
    · exact ih _ la hla2

theorem genItems_covers (rules : List Rule) (B : String) (las : List String) :
    ∀ (seen adds : List LR1Item) (r : Rule), r ∈ rules → r.left = B →
      ∀ la ∈ las,
        (⟨r.left, r.right, 0, la⟩ : LR1Item) ∈ (genItems rules B las seen adds).1 := by
  induction rules with
  | nil => intro seen adds r hr; simp at hr
  | cons r0 rules ih =>
    intro seen adds r hr hB la hla
    have hg : genItems (r0 :: rules) B las seen adds =
        rules.foldl (fun acc r2 => genRule r2 B las acc) (genRule r0 B las (seen, adds)) := by
      simp [genItems]
    rcases List.mem_cons.mp hr with rfl | hr2
    · obtain ⟨n1, hn1⟩ := genRule_shape r B las (seen, adds)
      have hcov : (⟨r.left, r.right, 0, la⟩ : LR1Item) ∈ (genRule r B las (seen, adds)).1 := by
        unfold genRule
        rw [if_pos hB]
        exact lasFold_covers r.left r.right las (seen, adds) la hla
      rw [hg, hn1]
      have heq : rules.foldl (fun acc r2 => genRule r2 B las acc) (seen ++ n1, adds ++ n1) =
          genItems rules B las (seen ++ n1) (adds ++ n1) := rfl
      obtain ⟨n2, hn2⟩ := genItems_shape rules B las (seen ++ n1) (adds ++ n1)
      rw [heq, hn2]
      rw [hn1] at hcov
      exact List.mem_append.mpr (Or.inl hcov)
    · rw [hg]
      obtain ⟨n1, hn1⟩ := genRule_shape r0 B las (seen, adds)
      rw [hn1]
      have heq : rules.foldl (fun acc r2 => genRule r2 B las acc) (seen ++ n1, adds ++ n1) =
          genItems rules B las (seen ++ n1) (adds ++ n1) := rfl
      rw [heq]
      exact ih (seen ++ n1) (adds ++ n1) r hr2 hB la hla

theorem lasFold_noop (l : String) (rr : List String) :
    ∀ (las : List String) (acc : List LR1Item × List LR1Item),
      (∀ la ∈ las, (⟨l, rr, 0, la⟩ : LR1Item) ∈ acc.1) →
      las.foldl (fun acc2 la => insItem acc2 ⟨l, rr, 0, la⟩) acc = acc := by
  intro las
  induction las with
  | nil => intro acc _; rfl
  | cons la las ih =>
    intro acc hall
    simp only [List.foldl_cons]
    have h1 : insItem acc ⟨l, rr, 0, la⟩ = acc := by
      simp [insItem, hall la (by simp)]
    rw [h1]
    exact ih acc (fun la2 hla2 => hall la2 (by simp [hla2]))

theorem genItems_noop (rules : List Rule) (B : String) (las : List String) :
    ∀ (seen adds : List LR1Item),
      (∀ r ∈ rules, r.left = B → ∀ la ∈ las,
        (⟨r.left, r.right, 0, la⟩ : LR1Item) ∈ seen) →
      genItems rules B las seen adds = (seen, adds) := by
  induction rules with
  | nil => intro seen adds _; rfl
  | cons r0 rules ih =>
    intro seen adds hall
    have hg : genItems (r0 :: rules) B las seen adds =
        rules.foldl (fun acc r2 => genRule r2 B las acc) (genRule r0 B las (seen, adds)) := by
      simp [genItems]
    have h0 : genRule r0 B las (seen, adds) = (seen, adds) := by
      unfold genRule
      by_cases hB : r0.left = B
      · rw [if_pos hB]
        exact lasFold_noop r0.left r0.right las (seen, adds)
          (fun la hla => hall r0 (by simp) hB la hla)
      · rw [if_neg hB]
    rw [hg, h0]
    exact ih seen adds (fun r hr hB la hla => hall r (by simp [hr]) hB la hla)

/-- Everything seen survives to the final closure set. -/
theorem closureLoop_grow (g : GrammarData) :
    ∀ {n : Nat} {seen queue C : List LR1Item},
      closureLoop g n seen queue = some C → ∀ x ∈ seen, x ∈ C := by
  intro n
  induction n with
  | zero => intro seen queue C h; exact absurd h (by simp [closureLoop])
  | succ n ih =>
    intro seen queue C h x hx
    match queue with
    | [] =>
      simp only [closureLoop, Option.some.injEq] at h
      exact h ▸ hx
    | it :: rest =>
      simp only [closureLoop] at h
      cases hns : it.next_symbol with
      | none =>
        rw [hns] at h
        exact ih h x hx
      | some b =>
        rw [hns] at h
        simp only at h
        by_cases hb : b ∈ g.non_terminals
        · rw [if_pos hb] at h
          cases hlas : lookaheadsOf g it with
          | none => rw [hlas] at h; exact absurd h (by simp)
          | some las =>
            rw [hlas] at h
            simp only at h
            obtain ⟨new, hnew⟩ := genItems_shape g.rules b las seen []
            rw [hnew] at h
            exact ih h x (by simp [hx])
        · rw [if_neg hb] at h
          exact ih h x hx

/-- The final set of a completed closure run is closure-complete. -/
theorem closureLoop_saturated (g : GrammarData) :
    ∀ {n : Nat} {seen queue C : List LR1Item},
      closureLoop g n seen queue = some C →
      (∀ x ∈ seen, x ∈ queue ∨ SatAt g C x) →
      Saturated g C := by
  intro n
  induction n with
  | zero => intro seen queue C h; exact absurd h (by simp [closureLoop])
  | succ n ih =>
    intro seen queue C h hinv
    match queue with
    | [] =>
      simp only [closureLoop, Option.some.injEq] at h
      subst h
      intro x hx
      rcases hinv x hx with h2 | h2
      · simp at h2
      · exact h2
    | it :: rest =>
      simp only [closureLoop] at h
      cases hns : it.next_symbol with
      | none =>
        rw [hns] at h
        refine ih h ?_
        intro x hx
        rcases hinv x hx with h2 | h2
        · rcases List.mem_cons.mp h2 with rfl | h3
          · exact Or.inr (fun b hb => by rw [hns] at hb; exact absurd hb (by simp))
          · exact Or.inl h3
        · exact Or.inr h2
      | some b =>
        rw [hns] at h
        simp only at h
        by_cases hb : b ∈ g.non_terminals
        · rw [if_pos hb] at h
          cases hlas : lookaheadsOf g it with
          | none => rw [hlas] at h; exact absurd h (by simp)
          | some las =>
            rw [hlas] at h
            simp only at h
            obtain ⟨new, hnew⟩ := genItems_shape g.rules b las seen []
            rw [hnew] at h
            have hsat : SatAt g C it := by
              intro b2 hb2 hbnt
              rw [hns] at hb2
              have hb2e : b2 = b := by
                simpa using hb2.symm
              subst hb2e
              refine ⟨las, hlas, ?_⟩
              intro r hr hrB la hla
              have hcov := genItems_covers g.rules b2 las seen [] r hr hrB la hla
              rw [hnew] at hcov
              exact closureLoop_grow g h _ hcov
            refine ih h ?_
            intro x hx
            rcases List.mem_append.mp hx with hx2 | hx2
            · rcases hinv x hx2 with h2 | h2
              · rcases List.mem_cons.mp h2 with rfl | h3
                · exact Or.inr hsat
                · exact Or.inl (by simp [h3])
              · exact Or.inr h2
            · have : x ∈ rest ++ ([] ++ new) := by simp [hx2]
              exact Or.inl (by simpa using this)
        · rw [if_neg hb] at h
          refine ih h ?_
          intro x hx
          rcases hinv x hx with h2 | h2
          · rcases List.mem_cons.mp h2 with rfl | h3
            · refine Or.inr (fun b2 hb2 hbnt => ?_)
              rw [hns] at hb2
              have hb2e : b2 = b := by simpa using hb2.symm
              exact absurd hbnt (hb2e ▸ hb)
            · exact Or.inl h3
          · exact Or.inr h2

/-- Running the closure worklist on a closure-complete set returns it
unchanged, consuming one fuel per queued item. -/
theorem closureLoop_of_saturated (g : GrammarData) {C : List LR1Item}
    (hsat : Saturated g C) :
    ∀ (n : Nat) (queue : List LR1Item), (∀ x ∈ queue, x ∈ C) →
      queue.length < n → closureLoop g n C queue = some C := by
  intro n
  induction n with
  | zero => intro queue _ h; omega
  | succ n ih =>
    intro queue hq hlen
    match queue with
    | [] => simp [closureLoop]
    | it :: rest =>
      simp only [closureLoop]
      have hit : it ∈ C := hq it (by simp)
      cases hns : it.next_symbol with
      | none =>
        exact ih rest (fun x hx => hq x (by simp [hx])) (by simp at hlen ⊢; omega)
      | some b =>
        simp only
        by_cases hb : b ∈ g.non_terminals
        · rw [if_pos hb]
          obtain ⟨las, hlas, hcov⟩ := hsat it hit b hns hb
          rw [hlas]
          simp only
          have hnoop : genItems g.rules b las C [] = (C, []) := by
            refine genItems_noop g.rules b las C [] ?_
            intro r hr hrB la hla
            exact hcov r hr hrB la hla
          rw [hnoop]
          exact ih (rest ++ [])
            (fun x hx => hq x (List.mem_cons.mpr (Or.inr (by simpa using hx))))
            (by simp at hlen ⊢; omega)
        · rw [if_neg hb]
          exact ih rest (fun x hx => hq x (by simp [hx])) (by simp at hlen ⊢; omega)

/-- C8: whenever the closure computation completes, its result contains
the seed items and is a fixed point: closing the closure again returns
it unchanged. -/
theorem c8_closure_idempotent (g : GrammarData) (fuel fuel2 : Nat)
    (K C : List LR1Item) (h : closure g fuel K = some C)
    (hfuel : C.length < fuel2) :
    (∀ it ∈ K, it ∈ C) ∧ closure g fuel2 C = some C := by
  have hgrow := closureLoop_grow g h
  constructor
  · exact hgrow
  · have hsat : Saturated g C :=
      closureLoop_saturated g h (fun x hx => Or.inl hx)
    exact closureLoop_of_saturated g hsat fuel2 C (fun x hx => hx) hfuel

/-- The seed item set of the parser for S -> a. -/
def c8K : List LR1Item := [⟨augName "S", ["S"], 0, dollar⟩]

/-- Its closure. -/
def c8C : List LR1Item := (closure gAG 50 c8K).getD []

/-- Witness for C8 at a concrete item set. -/
theorem c8_closure_idempotent_witness :
    (∀ it ∈ c8K, it ∈ c8C) ∧ closure gAG 3 c8C = some c8C :=
  c8_closure_idempotent gAG 50 3 c8K c8C rfl (by decide)

/-! ### Structural table invariants and crash-freedom of `predict` (C10) -/

theorem idxOf_lt {states : List (List LR1Item)} {I : List LR1Item} :
    ∀ {j : Nat}, idxOf states I = some j → j < states.length := by
  induction states with
  | nil => intro j h; simp [idxOf] at h
  | cons J rest ih =>
    intro j h
    simp only [idxOf] at h
    by_cases hJ : setEqI J I
    · rw [if_pos hJ] at h
      simp only [Option.some.injEq] at h
      subst h
      simp
    · rw [if_neg hJ] at h
      cases hr : idxOf rest I with
      | none => rw [hr] at h; exact absurd h (by simp)
      | some j2 =>
        rw [hr] at h
        simp at h
        have := ih hr
        simp only [List.length_cons]
        omega

theorem alookup_mem {α : Type} :
    ∀ {row : List (String × α)} {k : String} {a : α},
      alookup row k = some a → (k, a) ∈ row := by
  intro row
  induction row with
  | nil => intro k a h; simp [alookup] at h
  | cons p rest ih =>
    intro k a h
    simp only [alookup] at h
    by_cases hk : p.1 = k
    · rw [if_pos hk] at h
      simp only [Option.some.injEq] at h
      rcases p with ⟨k0, a0⟩
      simp only at hk h
      subst hk
      subst h
      simp
    · rw [if_neg hk] at h
      exact List.mem_cons.mpr (Or.inr (ih h))

theorem popLoop_props :
    ∀ {rs : List String} {st st' : List Nat},
      popLoop rs st = some st' → (st ≠ [] → st' ≠ []) ∧ ∀ x ∈ st', x ∈ st := by
  intro rs
  induction rs with
  | nil =>
    intro st st' h
    simp only [popLoop, Option.some.injEq] at h
    subst h
    exact ⟨fun h2 => h2, fun x hx => hx⟩
  | cons r rs ih =>
    intro st st' h
    match st, h with
    | a :: b :: tl, h =>
      have h2 : popLoop rs (b :: tl) = some st' := h
      obtain ⟨hne, hsub⟩ := ih h2
      exact ⟨fun _ => hne (by simp), fun x hx => List.mem_cons.mpr (Or.inr (hsub x hx))⟩

/-- Every entry of a built ACTION row is the cell of one of the state's
items. -/
theorem rowFold_entries (g : GrammarData) (states : List (List LR1Item))
    (fuel : Nat) (I : List LR1Item) :
    ∀ (items : List LR1Item) (row0 row : List (String × Action)),
      (items.foldl (fun acc it =>
        match acc with
        | TR.ok row => rowStep g states fuel I row it
        | r => r) (TR.ok row0)) = TR.ok row →
      ∀ p ∈ row, p ∈ row0 ∨ ∃ it ∈ items, itemCell g states fuel I it = .ok (some p) := by
  intro items
  induction items with
  | nil =>
    intro row0 row h p hp
    simp only [List.foldl_nil] at h
    cases h
    exact Or.inl hp
  | cons it items ih =>
    intro row0 row h p hp
    simp only [List.foldl_cons] at h
    cases hstep : rowStep g states fuel I row0 it with
    | crash =>
      rw [hstep] at h
      exfalso
      have : ∀ (l : List LR1Item), (l.foldl (fun acc it2 =>
          match acc with
          | TR.ok row => rowStep g states fuel I row it2
          | r => r) TR.crash) = TR.crash := by
        intro l
        induction l with
        | nil => rfl
        | cons x l ihl => simp only [List.foldl_cons]; exact ihl
      rw [this] at h
      exact absurd h (by simp)
    | conflict =>
      rw [hstep] at h
      exfalso
      have : ∀ (l : List LR1Item), (l.foldl (fun acc it2 =>
          match acc with
          | TR.ok row => rowStep g states fuel I row it2
          | r => r) TR.conflict) = TR.conflict := by
        intro l
        induction l with
        | nil => rfl
        | cons x l ihl => simp only [List.foldl_cons]; exact ihl
      rw [this] at h
      exact absurd h (by simp)
    | ok row1 =>
      rw [hstep] at h
      rcases ih row1 row h p hp with h2 | ⟨it2, hit2, hc⟩
      · -- p from row1: either already in row0 or inserted by this item
        simp only [rowStep] at hstep
        cases hcell : itemCell g states fuel I it with
        | crash => rw [hcell] at hstep; exact absurd hstep (by simp)
        | conflict => rw [hcell] at hstep; exact absurd hstep (by simp)
        | ok cell =>
          rw [hcell] at hstep
          cases cell with
          | none =>
            simp only [TR.ok.injEq] at hstep
            subst hstep
            exact Or.inl h2
          | some ka =>
            simp only at hstep
            cases hlk : alookup row0 ka.1 with
            | some a0 =>
              rw [hlk] at hstep
              simp only at hstep
              by_cases ha : a0 = ka.2
              · rw [if_pos ha] at hstep
                simp only [TR.ok.injEq] at hstep
                subst hstep
                exact Or.inl h2
              · rw [if_neg ha] at hstep
                exact absurd hstep (by simp)
            | none =>
              rw [hlk] at hstep
              simp only [TR.ok.injEq] at hstep
              subst hstep
              rcases List.mem_append.mp h2 with h3 | h3
              · exact Or.inl h3
              · simp only [List.mem_singleton] at h3
                subst h3
                exact Or.inr ⟨it, by simp, by rw [hcell]⟩
      · exact Or.inr ⟨it2, by simp [hit2], hc⟩

theorem buildRow_entries {g : GrammarData} {states : List (List LR1Item)}
    {fuel : Nat} {I : List LR1Item} {row : List (String × Action)}
    (h : buildRow g states fuel I = TR.ok row) :
    ∀ p ∈ row, ∃ it ∈ I, itemCell g states fuel I it = .ok (some p) := by
  intro p hp
  rcases rowFold_entries g states fuel I I [] row h p hp with h2 | h2
  · simp at h2
  · exact h2

/-- Shift targets recorded by `itemCell` are valid state indices, and
cell keys classify their actions. -/
theorem itemCell_props {g : GrammarData} {states : List (List LR1Item)}
    {fuel : Nat} {I : List LR1Item} {it : LR1Item} {k : String} {a : Action}
    (h : itemCell g states fuel I it = .ok (some (k, a))) :
    (∀ j, a = .shift j → j < states.length ∧ k ∈ g.terminals) ∧
    (a = .accept → k = dollar) := by
  simp only [itemCell] at h
  by_cases hc : it.is_complete
  · rw [if_pos hc] at h
    by_cases hl : it.left = g.augmented_start
    · rw [if_pos hl] at h
      by_cases hla : it.lookahead = dollar
      · rw [if_pos hla] at h
        simp only [TR.ok.injEq, Option.some.injEq, Prod.mk.injEq] at h
        exact ⟨fun j hj => absurd (h.2 ▸ hj) (by simp), fun _ => h.1.symm⟩
      · rw [if_neg hla] at h
        exact absurd h (by simp)
    · rw [if_neg hl] at h
      simp only [TR.ok.injEq, Option.some.injEq, Prod.mk.injEq] at h
      exact ⟨fun j hj => absurd (h.2 ▸ hj) (by simp),
        fun hacc => absurd (h.2 ▸ hacc) (by simp)⟩
  · rw [if_neg hc] at h
    cases hns : it.next_symbol with
    | none => rw [hns] at h; exact absurd h (by simp)
    | some sym =>
      rw [hns] at h
      simp only at h
      by_cases hts : sym ∈ g.terminals
      · rw [if_pos hts] at h
        cases hgoto : goto g fuel I sym with
        | none => rw [hgoto] at h; exact absurd h (by simp)
        | some gI =>
          rw [hgoto] at h
          simp only at h
          by_cases hemp : gI.isEmpty
          · rw [if_pos hemp] at h; exact absurd h (by simp)
          · rw [if_neg hemp] at h
            cases hidx : idxOf states gI with
            | none => rw [hidx] at h; exact absurd h (by simp)
            | some j0 =>
              rw [hidx] at h
              simp only [TR.ok.injEq, Option.some.injEq, Prod.mk.injEq] at h
              refine ⟨fun j hj => ?_, fun hacc => absurd (h.2 ▸ hacc) (by simp)⟩
              have hj0 : j = j0 := by
                have := h.2 ▸ hj
                simpa using this.symm
              subst hj0
              exact ⟨idxOf_lt hidx, h.1 ▸ hts⟩
      · rw [if_neg hts] at h
        exact absurd h (by simp)

/-- Every row of the built ACTION table comes from `buildRow` of one of
the states. -/
theorem tableFold_rows (g : GrammarData) (states : List (List LR1Item)) (fuel : Nat) :
    ∀ (sts : List (List LR1Item)) (rows0 rows : List (List (String × Action))),
      (sts.foldl (fun acc I =>
        match acc with
        | TR.ok rows =>
          match buildRow g states fuel I with
          | TR.ok row => TR.ok (rows ++ [row])
          | TR.conflict => TR.conflict
          | TR.crash => TR.crash
        | r => r) (TR.ok rows0)) = TR.ok rows →
      rows.length = rows0.length + sts.length ∧
      ∀ row ∈ rows, row ∈ rows0 ∨ ∃ I ∈ sts, buildRow g states fuel I = TR.ok row := by
  intro sts
  induction sts with
  | nil =>
    intro rows0 rows h
    simp only [List.foldl_nil] at h
    cases h
    exact ⟨by simp, fun row hrow => Or.inl hrow⟩
  | cons I sts ih =>
    intro rows0 rows h
    simp only [List.foldl_cons] at h
    cases hbr : buildRow g states fuel I with
    | crash =>
      rw [hbr] at h
      exfalso
      have : ∀ (l : List (List LR1Item)), (l.foldl (fun acc I2 =>
          match acc with
          | TR.ok rows =>
            match buildRow g states fuel I2 with
            | TR.ok row => TR.ok (rows ++ [row])
            | TR.conflict => TR.conflict
            | TR.crash => TR.crash
          | r => r) TR.crash) = TR.crash := by
        intro l
        induction l with
        | nil => rfl
        | cons x l ihl => simp only [List.foldl_cons]; exact ihl
      rw [this] at h
      exact absurd h (by simp)
    | conflict =>
      rw [hbr] at h
      exfalso
      have : ∀ (l : List (List LR1Item)), (l.foldl (fun acc I2 =>
          match acc with
          | TR.ok rows =>
            match buildRow g states fuel I2 with
            | TR.ok row => TR.ok (rows ++ [row])
            | TR.conflict => TR.conflict
            | TR.crash => TR.crash
          | r => r) TR.conflict) = TR.conflict := by
        intro l
        induction l with
        | nil => rfl
        | cons x l ihl => simp only [List.foldl_cons]; exact ihl
      rw [this] at h
      exact absurd h (by simp)
    | ok row1 =>
      rw [hbr] at h
      obtain ⟨hlen, hrows⟩ := ih (rows0 ++ [row1]) rows h
      constructor
      · simp at hlen ⊢
        omega
      · intro row hrow
        rcases hrows row hrow with h2 | ⟨I2, hI2, h3⟩
        · rcases List.mem_append.mp h2 with h3 | h3
          · exact Or.inl h3
          · simp only [List.mem_singleton] at h3
            subst h3
            exact Or.inr ⟨I, by simp, hbr⟩
        · exact Or.inr ⟨I2, by simp [hI2], h3⟩

theorem mem_of_mem_set {α : Type} :
    ∀ {l : List α} {i : Nat} {b a : α}, a ∈ l.set i b → a ∈ l ∨ a = b := by
  intro l
  induction l with
  | nil => intro i b a h; simp at h
  | cons x l ih =>
    intro i b a h
    cases i with
    | zero =>
      simp only [List.set] at h
      rcases List.mem_cons.mp h with rfl | h2
      · exact Or.inr rfl
      · exact Or.inl (by simp [h2])
    | succ i =>
      simp only [List.set] at h
      rcases List.mem_cons.mp h with rfl | h2
      · exact Or.inl (by simp)
      · rcases ih h2 with h3 | h3
        · exact Or.inl (by simp [h3])
        · exact Or.inr h3

theorem aset_entries {row : List (String × Nat)} {k : String} {t : Nat} :
    ∀ p ∈ aset row k t, p ∈ row ∨ p.2 = t := by
  intro p hp
  simp only [aset] at hp
  cases hlk : alookup row k with
  | some t0 =>
    rw [hlk] at hp
    simp only [List.mem_map] at hp
    obtain ⟨q, hq, hqe⟩ := hp
    by_cases hqk : q.1 = k
    · rw [if_pos hqk] at hqe
      exact Or.inr (by rw [← hqe])
    · rw [if_neg hqk] at hqe
      exact Or.inl (hqe ▸ hq)
  | none =>
    rw [hlk] at hp
    rcases List.mem_append.mp hp with h2 | h2
    · exact Or.inl h2
    · simp only [List.mem_singleton] at h2
      exact Or.inr (by rw [h2])

/-- The GOTO table has one row per state and only valid target
indices. -/
theorem buildGotoTable_props {g : GrammarData} {bound : Nat} :
    ∀ {trs : List (Nat × String × Nat)} {tbl0 tbl : List (List (String × Nat))},
      trs.foldlM (fun tbl tr =>
        if tr.2.1 ∈ g.non_terminals then
          match tbl.get? tr.1 with
          | none => none
          | some row => some (tbl.set tr.1 (aset row tr.2.1 tr.2.2))
        else some tbl) tbl0 = some tbl →
      (∀ tr ∈ trs, tr.2.2 < bound) →
      (∀ row ∈ tbl0, ∀ p ∈ row, p.2 < bound) →
      tbl.length = tbl0.length ∧ ∀ row ∈ tbl, ∀ p ∈ row, p.2 < bound := by
  intro trs
  induction trs with
  | nil =>
    intro tbl0 tbl h htr h0
    simp only [List.foldlM_nil, Option.pure_def, Option.some.injEq] at h
    subst h
    exact ⟨rfl, h0⟩
  | cons tr trs ih =>
    intro tbl0 tbl h htr h0
    rw [List.foldlM_cons] at h
    by_cases hnt : tr.2.1 ∈ g.non_terminals
    · rw [if_pos hnt] at h
      cases hget : tbl0.get? tr.1 with
      | none =>
        rw [hget] at h
        exact absurd h (by simp)
      | some row0 =>
        rw [hget] at h
        simp only [Option.bind_eq_bind, Option.some_bind] at h
        have hrow0 : row0 ∈ tbl0 := List.get?_mem hget
        have h1 : ∀ row ∈ tbl0.set tr.1 (aset row0 tr.2.1 tr.2.2),
            ∀ p ∈ row, p.2 < bound := by
          intro row hrow p hp
          rcases mem_of_mem_set hrow with h2 | h2
          · exact h0 row h2 p hp
          · subst h2
            rcases aset_entries p hp with h3 | h3
            · exact h0 row0 hrow0 p h3
            · rw [h3]
              exact htr tr (by simp)
        obtain ⟨hlen, hprop⟩ := ih h (fun tr2 htr2 => htr tr2 (by simp [htr2])) h1
        exact ⟨by rw [hlen]; simp, hprop⟩
    · rw [if_neg hnt] at h
      simp only [Option.bind_eq_bind, Option.some_bind] at h
      exact ih h (fun tr2 htr2 => htr tr2 (by simp [htr2])) h0

/-- Transition validity relative to a state list. -/
def TransOK (sts : List (List LR1Item)) (trs : List (Nat × String × Nat)) : Prop :=
  ∀ tr ∈ trs, tr.1 < sts.length ∧ tr.2.2 < sts.length

theorem symStep_props {g : GrammarData} {fuel : Nat} {I : List LR1Item}
    {acc acc' : List (List LR1Item) × List (List LR1Item) × List (Nat × String × Nat)}
    {symbol : String} (h : symStep g fuel I acc symbol = some acc') :
    acc.1.length ≤ acc'.1.length ∧
    (TransOK acc.1 acc.2.2 → TransOK acc'.1 acc'.2.2) := by
  simp only [symStep] at h
  cases hgoto : goto g fuel I symbol with
  | none => rw [hgoto] at h; exact absurd h (by simp)
  | some gI =>
    rw [hgoto] at h
    simp only at h
    by_cases hemp : gI.isEmpty
    · rw [if_pos hemp] at h
      simp only [Option.some.injEq] at h
      subst h
      exact ⟨le_refl _, fun hok => hok⟩
    · rw [if_neg hemp] at h
      cases hf : idxOf (if acc.1.any (fun J => setEqI J gI) then acc.1 else acc.1 ++ [gI]) I with
      | none => rw [hf] at h; exact absurd h (by simp)
      | some f =>
        rw [hf] at h
        simp only at h
        cases ht : idxOf (if acc.1.any (fun J => setEqI J gI) then acc.1 else acc.1 ++ [gI]) gI with
        | none => rw [ht] at h; exact absurd h (by simp)
        | some t =>
          rw [ht] at h
          simp only [Option.some.injEq] at h
          subst h
          have hlen : acc.1.length ≤
              (if acc.1.any (fun J => setEqI J gI) then acc.1 else acc.1 ++ [gI]).length := by
            split <;> simp
          refine ⟨hlen, ?_⟩
          intro hok tr htr
          rcases List.mem_append.mp htr with h2 | h2
          · obtain ⟨ha, hb⟩ := hok tr h2
            have hg1 : tr.1 <
                (if acc.1.any (fun J => setEqI J gI) then acc.1 else acc.1 ++ [gI]).length := by
              omega
            have hg2 : tr.2.2 <
                (if acc.1.any (fun J => setEqI J gI) then acc.1 else acc.1 ++ [gI]).length := by
              omega
            exact ⟨hg1, hg2⟩
          · simp only [List.mem_singleton] at h2
            subst h2
            exact ⟨idxOf_lt hf, idxOf_lt ht⟩

theorem symFold_props {g : GrammarData} {fuel : Nat} {I : List LR1Item} :
    ∀ {symbols : List String}
      {acc acc' : List (List LR1Item) × List (List LR1Item) × List (Nat × String × Nat)},
      symbols.foldlM (symStep g fuel I) acc = some acc' →
      acc.1.length ≤ acc'.1.length ∧
      (TransOK acc.1 acc.2.2 → TransOK acc'.1 acc'.2.2) := by
  intro symbols
  induction symbols with
  | nil =>
    intro acc acc' h
    simp only [List.foldlM_nil, Option.pure_def, Option.some.injEq] at h
    subst h
    exact ⟨le_refl _, fun hok => hok⟩
  | cons sym symbols ih =>
    intro acc acc' h
    rw [List.foldlM_cons] at h
    cases hs : symStep g fuel I acc sym with
    | none => rw [hs] at h; exact absurd h (by simp)
    | some acc2 =>
      rw [hs] at h
      simp only [Option.bind_eq_bind, Option.some_bind] at h
      obtain ⟨hl1, ht1⟩ := symStep_props hs
      obtain ⟨hl2, ht2⟩ := ih h
      exact ⟨le_trans hl1 hl2, fun hok => ht2 (ht1 hok)⟩

theorem buildStatesLoop_props {g : GrammarData} {fuel : Nat} :
    ∀ {n : Nat} {states queue : List (List LR1Item)}
      {trs : List (Nat × String × Nat)}
      {S : List (List LR1Item)} {T : List (Nat × String × Nat)},
      buildStatesLoop g fuel n states queue trs = some (S, T) →
      states.length ≤ S.length ∧ (TransOK states trs → TransOK S T) := by
  intro n
  induction n with
  | zero =>
    intro states queue trs S T h
    exact absurd h (by simp [buildStatesLoop])
  | succ n ih =>
    intro states queue trs S T h
    match queue with
    | [] =>
      simp only [buildStatesLoop, Option.some.injEq, Prod.mk.injEq] at h
      rw [← h.1, ← h.2]
      exact ⟨le_refl _, fun hok => hok⟩
    | I :: qrest =>
      simp only [buildStatesLoop] at h
      cases hf : g.symbols.foldlM (symStep g fuel I) (states, ([] : List (List LR1Item)), trs) with
      | none => rw [hf] at h; exact absurd h (by simp)
      | some acc2 =>
        rw [hf] at h
        simp only at h
        rcases acc2 with ⟨sts2, q2, trs2⟩
        obtain ⟨hl1, ht1⟩ := symFold_props hf
        obtain ⟨hl2, ht2⟩ := ih h
        exact ⟨le_trans hl1 hl2, fun hok => ht2 (ht1 hok)⟩

theorem build_states_props {g : GrammarData} {fuel bfuel : Nat}
    {S : List (List LR1Item)} {T : List (Nat × String × Nat)}
    (h : build_states g fuel bfuel = some (S, T)) :
    0 < S.length ∧ TransOK S T := by
  simp only [build_states] at h
  cases hc : closure g fuel [⟨g.augmented_start, [g.start_symbol], 0, dollar⟩] with
  | none => rw [hc] at h; exact absurd h (by simp)
  | some I0 =>
    rw [hc] at h
    obtain ⟨hl, ht⟩ := buildStatesLoop_props h
    refine ⟨by simp at hl; omega, ht ?_⟩
    intro tr htr
    simp at htr

theorem build_tables_props {g : GrammarData} {sts : List (List LR1Item)}
    {trs : List (Nat × String × Nat)} {fuel : Nat}
    {at_ : List (List (String × Action))} {gt : List (List (String × Nat))}
    (h : build_tables g sts trs fuel = TR.ok (at_, gt)) (hok : TransOK sts trs) :
    at_.length = sts.length ∧ gt.length = sts.length ∧
    (∀ row ∈ at_, ∀ p ∈ row, ∀ j, p.2 = Action.shift j → j < sts.length) ∧
    (∀ grow ∈ gt, ∀ p ∈ grow, p.2 < sts.length) := by
  simp only [build_tables] at h
  cases hat : buildActionTable g sts fuel with
  | crash => rw [hat] at h; exact absurd h (by simp)
  | conflict => rw [hat] at h; exact absurd h (by simp)
  | ok rows =>
    rw [hat] at h
    simp only at h
    cases hgt : buildGotoTable g sts.length trs with
    | none => rw [hgt] at h; exact absurd h (by simp)
    | some gt0 =>
      rw [hgt] at h
      simp only [TR.ok.injEq, Prod.mk.injEq] at h
      obtain ⟨h1, h2⟩ := h
      subst h1
      subst h2
      obtain ⟨hlen, hrows⟩ := tableFold_rows g sts fuel sts [] rows hat
      obtain ⟨hglen, hgprop⟩ := buildGotoTable_props hgt
        (fun tr htr => (hok tr htr).2)
        (by
          intro row hrow p hp
          rw [List.eq_of_mem_replicate hrow] at hp
          simp at hp)
      refine ⟨by simpa using hlen, by simpa using hglen, ?_, hgprop⟩
      intro row hrow p hp j hj
      rcases hrows row hrow with h3 | ⟨I, hI, hbr⟩
      · simp at h3
      · obtain ⟨it, hit, hcell⟩ := buildRow_entries hbr p hp
        rcases p with ⟨k, a⟩
        exact ((itemCell_props hcell).1 j hj).1

theorem fit_parts {g : GrammarData} {fuel bfuel : Nat} {P : Parser}
    (h : fit g fuel bfuel = FitRes.ok P) :
    ∃ sts trs, build_states g fuel bfuel = some (sts, trs) ∧
      build_tables g sts trs fuel = TR.ok (P.action_table, P.goto_table) ∧
      P.states = sts := by
  simp only [fit] at h
  cases hbs : build_states g fuel bfuel with
  | none => rw [hbs] at h; exact absurd h (by simp)
  | some st =>
    rw [hbs] at h
    rcases st with ⟨sts, trs⟩
    simp only at h
    cases hbt : build_tables g sts trs fuel with
    | crash => rw [hbt] at h; exact absurd h (by simp)
    | conflict => rw [hbt] at h; exact absurd h (by simp)
    | ok tb =>
      rw [hbt] at h
      rcases tb with ⟨at_, gt⟩
      simp only [FitRes.ok.injEq] at h
      subst h
      exact ⟨sts, trs, rfl, hbt, rfl⟩

theorem predictLoop_ne_crash {P : Parser}
    (hlen1 : P.action_table.length = P.states.length)
    (hlen2 : P.goto_table.length = P.states.length)
    (hshift : ∀ row ∈ P.action_table, ∀ p ∈ row, ∀ j, p.2 = Action.shift j →
      j < P.states.length)
    (hgoto : ∀ grow ∈ P.goto_table, ∀ p ∈ grow, p.2 < P.states.length) :
    ∀ (n : Nat) (stack : List Nat) (word : List String) (idx : Nat),
      stack ≠ [] → (∀ s ∈ stack, s < P.states.length) →
      predictLoop P n stack word idx ≠ PR.crash := by
  intro n
  induction n with
  | zero => intro stack word idx _ _; simp [predictLoop]
  | succ n ih =>
    intro stack word idx hne hval
    match stack, hne with
    | state :: rest, _ =>
      have hstate : state < P.states.length := hval state (by simp)
      cases hrow : P.action_table.get? state with
      | none =>
        exfalso
        have := List.get?_eq_none.mp hrow
        omega
      | some row =>
        have hrowmem := List.get?_mem hrow
        cases halk : alookup row (word.getD idx dollar) with
        | none =>
          have heq : predictLoop P (n + 1) (state :: rest) word idx = PR.acc false := by
            simp only [predictLoop, hrow, halk]
          rw [heq]
          simp
        | some a =>
          cases a with
          | shift j =>
            have heq : predictLoop P (n + 1) (state :: rest) word idx =
                predictLoop P n (j :: state :: rest) word (idx + 1) := by
              simp only [predictLoop, hrow, halk]
            rw [heq]
            have hj : j < P.states.length :=
              hshift row hrowmem _ (alookup_mem halk) j rfl
            refine ih (j :: state :: rest) word (idx + 1) (by simp) ?_
            intro s hs
            rcases List.mem_cons.mp hs with rfl | hs2
            · exact hj
            · exact hval s hs2
          | reduce left right =>
            cases hpop : popLoop right (state :: rest) with
            | none =>
              have heq : predictLoop P (n + 1) (state :: rest) word idx = PR.acc false := by
                simp only [predictLoop, hrow, halk, hpop]
              rw [heq]
              simp
            | some stack1 =>
              obtain ⟨hne1, hsub1⟩ := popLoop_props hpop
              match stack1, hne1 (by simp) with
              | s2 :: tl, _ =>
                have hs2 : s2 < P.states.length :=
                  hval s2 (hsub1 s2 (by simp))
                cases hgrow : P.goto_table.get? s2 with
                | none =>
                  exfalso
                  have := List.get?_eq_none.mp hgrow
                  omega
                | some grow =>
                  have hgrowmem := List.get?_mem hgrow
                  cases hlk : alookup grow left with
                  | none =>
                    have heq : predictLoop P (n + 1) (state :: rest) word idx =
                        PR.acc false := by
                      simp only [predictLoop, hrow, halk, hpop, hgrow, hlk]
                    rw [heq]
                    simp
                  | some t =>
                    have heq : predictLoop P (n + 1) (state :: rest) word idx =
                        predictLoop P n (t :: s2 :: tl) word idx := by
                      simp only [predictLoop, hrow, halk, hpop, hgrow, hlk]
                    rw [heq]
                    have ht : t < P.states.length :=
                      hgoto grow hgrowmem _ (alookup_mem hlk)
                    refine ih (t :: s2 :: tl) word idx (by simp) ?_
                    intro s hs
                    rcases List.mem_cons.mp hs with rfl | hs2
                    · exact ht
                    · exact hval s (hsub1 s hs2)
          | accept =>
            have heq : predictLoop P (n + 1) (state :: rest) word idx = PR.acc true := by
              simp only [predictLoop, hrow, halk]
            rw [heq]
            simp

/-- C10: on a parser produced by a successful `fit`, `predict` never
fails an access: the stack stays nonempty, every stored state index is
in range, and a reduce whose pops would empty the stack returns false
rather than erroring. -/
theorem c10_no_failing_access (g : GrammarData) (fuel bfuel n : Nat)
    (P : Parser) (w : List String) (hfit : fit g fuel bfuel = FitRes.ok P) :
    predict P w n ≠ PR.crash ∧
    (∀ (m state : Nat) (rest : List Nat) (word : List String) (idx : Nat)
       (row : List (String × Action)) (left : String) (right : List String),
      P.action_table.get? state = some row →
      alookup row (word.getD idx dollar) = some (Action.reduce left right) →
      popLoop right (state :: rest) = none →
      predictLoop P (m + 1) (state :: rest) word idx = PR.acc false) := by
  obtain ⟨sts, trs, hbs, hbt, hPst⟩ := fit_parts hfit
  obtain ⟨hpos, hok⟩ := build_states_props hbs
  obtain ⟨hl1, hl2, hsh, hgt⟩ := build_tables_props hbt hok
  rw [← hPst] at hl1 hl2 hsh hgt hpos
  constructor
  · apply predictLoop_ne_crash hl1 hl2 hsh hgt n [0] (w ++ [dollar]) 0 (by simp)
    intro s hs
    simp only [List.mem_singleton] at hs
    subst hs
    exact hpos
  · intro m state rest word idx row left right hrow halk hpop
    simp only [predictLoop, hrow, halk, hpop]

/-- Witness for C10 on the parser for S -> a. -/
theorem c10_no_failing_access_witness :
    predict pAG ["a"] 20 ≠ PR.crash ∧
    (∀ (m state : Nat) (rest : List Nat) (word : List String) (idx : Nat)
       (row : List (String × Action)) (left : String) (right : List String),
      pAG.action_table.get? state = some row →
      alookup row (word.getD idx dollar) = some (Action.reduce left right) →
      popLoop right (state :: rest) = none →
      predictLoop pAG (m + 1) (state :: rest) word idx = PR.acc false) :=
  c10_no_failing_access gAG 100 100 20 pAG ["a"] rfl

/-! ### Conflict detection (C3) -/

/-- Two items of one state would write distinct actions into the same
ACTION cell. -/
def ConflictExists (g : GrammarData) (sts : List (List LR1Item)) (fuel : Nat) : Prop :=
  ∃ I ∈ sts, ∃ i1 ∈ I, ∃ i2 ∈ I, ∃ k a1 a2,
    itemCell g sts fuel I i1 = TR.ok (some (k, a1)) ∧
    itemCell g sts fuel I i2 = TR.ok (some (k, a2)) ∧ a1 ≠ a2

theorem itemCell_ne_conflict {g : GrammarData} {states : List (List LR1Item)}
    {fuel : Nat} {I : List LR1Item} {it : LR1Item} :
    itemCell g states fuel I it ≠ TR.conflict := by
  simp only [itemCell]
  by_cases hc : it.is_complete
  · rw [if_pos hc]
    by_cases hl : it.left = g.augmented_start
    · rw [if_pos hl]
      by_cases hla : it.lookahead = dollar
      · simp [hla]
      · simp [hla]
    · simp [hl]
  · rw [if_neg hc]
    cases hns : it.next_symbol with
    | none => simp
    | some sym =>
      simp only
      by_cases hts : sym ∈ g.terminals
      · rw [if_pos hts]
        cases hgoto : goto g fuel I sym with
        | none => simp
        | some gI =>
          simp only
          by_cases hemp : gI.isEmpty
          · simp [hemp]
          · rw [if_neg hemp]
            cases hidx : idxOf states gI with
            | none => simp
            | some j => simp
      · simp [hts]

theorem alookup_append_of_some {α : Type} {l l2 : List (String × α)} {k : String}
    {a : α} (h : alookup l k = some a) : alookup (l ++ l2) k = some a := by
  induction l with
  | nil => simp [alookup] at h
  | cons p rest ih =>
    simp only [alookup] at h ⊢
    by_cases hk : p.1 = k
    · rw [if_pos hk] at h ⊢; exact h
    · rw [if_neg hk] at h ⊢; exact ih h

theorem alookup_append_of_none {α : Type} {l l2 : List (String × α)} {k : String}
    (h : alookup l k = none) : alookup (l ++ l2) k = alookup l2 k := by
  induction l with
  | nil => rfl
  | cons p rest ih =>
    simp only [alookup] at h ⊢
    by_cases hk : p.1 = k
    · rw [if_pos hk] at h; exact absurd h (by simp)
    · rw [if_neg hk] at h ⊢; exact ih h

theorem alookup_none_not_key {α : Type} {l : List (String × α)} {k : String}
    (h : alookup l k = none) : k ∉ l.map Prod.fst := by
  induction l with
  | nil => simp
  | cons p rest ih =>
    simp only [alookup] at h
    by_cases hk : p.1 = k
    · rw [if_pos hk] at h; exact absurd h (by simp)
    · rw [if_neg hk] at h
      simp only [List.map_cons, List.mem_cons]
      rintro (rfl | h2)
      · exact hk rfl
      · exact ih h h2

/-- The row fold, conflict direction: a conflict exhibits two items with
clashing cells. -/
theorem rowFold_conflict (g : GrammarData) (states : List (List LR1Item))
    (fuel : Nat) (I : List LR1Item) :
    ∀ (items : List LR1Item) (row0 : List (String × Action)),
      (∀ s ∈ items, s ∈ I) →
      (∀ p ∈ row0, ∃ it ∈ I, itemCell g states fuel I it = TR.ok (some p)) →
      (items.foldl (fun acc it =>
        match acc with
        | TR.ok row => rowStep g states fuel I row it
        | r => r) (TR.ok row0)) = TR.conflict →
      ∃ i1 ∈ I, ∃ i2 ∈ I, ∃ k a1 a2,
        itemCell g states fuel I i1 = TR.ok (some (k, a1)) ∧
        itemCell g states fuel I i2 = TR.ok (some (k, a2)) ∧ a1 ≠ a2 := by
  intro items
  induction items with
  | nil =>
    intro row0 _ _ h
    simp at h
  | cons it items ih =>
    intro row0 hsub hrow0 h
    simp only [List.foldl_cons] at h
    cases hstep : rowStep g states fuel I row0 it with
    | crash =>
      rw [hstep] at h
      exfalso
      have : ∀ (l : List LR1Item), (l.foldl (fun acc it2 =>
          match acc with
          | TR.ok row => rowStep g states fuel I row it2
          | r => r) TR.crash) = TR.crash := by
        intro l
        induction l with
        | nil => rfl
        | cons x l ihl => simp only [List.foldl_cons]; exact ihl
      rw [this] at h
      exact absurd h (by simp)
    | conflict =>
      simp only [rowStep] at hstep
      cases hcell : itemCell g states fuel I it with
      | crash => rw [hcell] at hstep; exact absurd hstep (by simp)
      | conflict => exact absurd hcell itemCell_ne_conflict
      | ok cell =>
        rw [hcell] at hstep
        cases cell with
        | none => exact absurd hstep (by simp)
        | some ka =>
          simp only at hstep
          cases hlk : alookup row0 ka.1 with
          | none =>
            rw [hlk] at hstep
            exact absurd hstep (by simp)
          | some a0 =>
            rw [hlk] at hstep
            simp only at hstep
            by_cases ha : a0 = ka.2
            · rw [if_pos ha] at hstep; exact absurd hstep (by simp)
            · obtain ⟨it0, hit0, hc0⟩ := hrow0 (ka.1, a0) (alookup_mem hlk)
              exact ⟨it0, hit0, it, hsub it (by simp), ka.1, a0, ka.2, hc0,
                by rw [hcell], ha⟩
    | ok row1 =>
      rw [hstep] at h
      refine ih row1 (fun s hs => hsub s (by simp [hs])) ?_ h
      intro p hp
      simp only [rowStep] at hstep
      cases hcell : itemCell g states fuel I it with
      | crash => rw [hcell] at hstep; exact absurd hstep (by simp)
      | conflict => exact absurd hcell itemCell_ne_conflict
      | ok cell =>
        rw [hcell] at hstep
        cases cell with
        | none =>
          simp only [TR.ok.injEq] at hstep
          exact hrow0 p (hstep ▸ hp)
        | some ka =>
          simp only at hstep
          cases hlk : alookup row0 ka.1 with
          | none =>
            rw [hlk] at hstep
            simp only [TR.ok.injEq] at hstep
            rw [← hstep] at hp
            rcases List.mem_append.mp hp with h2 | h2
            · exact hrow0 p h2
            · simp only [List.mem_singleton] at h2
              subst h2
              exact ⟨it, hsub it (by simp), by rw [hcell]⟩
          | some a0 =>
            rw [hlk] at hstep
            simp only at hstep
            by_cases ha : a0 = ka.2
            · rw [if_pos ha] at hstep
              simp only [TR.ok.injEq] at hstep
              exact hrow0 p (hstep ▸ hp)
            · rw [if_neg ha] at hstep
              exact absurd hstep (by simp)

/-- The row fold, success direction: the final row answers every
processed item's cell, and persists earlier answers. -/
theorem rowFold_lookup (g : GrammarData) (states : List (List LR1Item))
    (fuel : Nat) (I : List LR1Item) :
    ∀ (items : List LR1Item) (row0 row : List (String × Action)),
      (items.foldl (fun acc it =>
        match acc with
        | TR.ok row => rowStep g states fuel I row it
        | r => r) (TR.ok row0)) = TR.ok row →
      (∀ k a, alookup row0 k = some a → alookup row k = some a) ∧
      (∀ it ∈ items, ∀ k a, itemCell g states fuel I it = TR.ok (some (k, a)) →
        alookup row k = some a) := by
  intro items
  induction items with
  | nil =>
    intro row0 row h
    simp only [List.foldl_nil, TR.ok.injEq] at h
    subst h
    exact ⟨fun k a h2 => h2, fun it hit => by simp at hit⟩
  | cons it items ih =>
    intro row0 row h
    simp only [List.foldl_cons] at h
    cases hstep : rowStep g states fuel I row0 it with
    | crash =>
      rw [hstep] at h
      exfalso
      have : ∀ (l : List LR1Item), (l.foldl (fun acc it2 =>
          match acc with
          | TR.ok row => rowStep g states fuel I row it2
          | r => r) TR.crash) = TR.crash := by
        intro l
        induction l with
        | nil => rfl
        | cons x l ihl => simp only [List.foldl_cons]; exact ihl
      rw [this] at h
      exact absurd h (by simp)
    | conflict =>
      rw [hstep] at h
      exfalso
      have : ∀ (l : List LR1Item), (l.foldl (fun acc it2 =>
          match acc with
          | TR.ok row => rowStep g states fuel I row it2
          | r => r) TR.conflict) = TR.conflict := by
        intro l
        induction l with
        | nil => rfl
        | cons x l ihl => simp only [List.foldl_cons]; exact ihl
      rw [this] at h
      exact absurd h (by simp)
    | ok row1 =>
      rw [hstep] at h
      obtain ⟨hpers, hitems⟩ := ih row1 row h
      simp only [rowStep] at hstep
      cases hcell : itemCell g states fuel I it with
      | crash => rw [hcell] at hstep; exact absurd hstep (by simp)
      | conflict => exact absurd hcell itemCell_ne_conflict
      | ok cell =>
        rw [hcell] at hstep
        cases cell with
        | none =>
          simp only [TR.ok.injEq] at hstep
          subst hstep
          refine ⟨hpers, ?_⟩
          intro it2 hit2 k a hc2
          rcases List.mem_cons.mp hit2 with rfl | hit3
          · rw [hcell] at hc2
            exact absurd hc2 (by simp)
          · exact hitems it2 hit3 k a hc2
        | some ka =>
          simp only at hstep
          cases hlk : alookup row0 ka.1 with
          | none =>
            rw [hlk] at hstep
            simp only [TR.ok.injEq] at hstep
            subst hstep
            refine ⟨?_, ?_⟩
            · intro k a h2
              exact hpers k a (alookup_append_of_some h2)
            · intro it2 hit2 k a hc2
              rcases List.mem_cons.mp hit2 with rfl | hit3
              · rw [hcell] at hc2
                simp only [TR.ok.injEq, Option.some.injEq] at hc2
                have hk : ka.1 = k ∧ ka.2 = a := by
                  rcases ka with ⟨k0, a0⟩
                  simp only at hc2 ⊢
                  exact ⟨congrArg Prod.fst hc2, congrArg Prod.snd hc2⟩
                refine hpers k a ?_
                rw [← hk.1, ← hk.2]
                rw [alookup_append_of_none hlk]
                simp [alookup]
              · exact hitems it2 hit3 k a hc2
          | some a0 =>
            rw [hlk] at hstep
            simp only at hstep
            by_cases ha : a0 = ka.2
            · rw [if_pos ha] at hstep
              simp only [TR.ok.injEq] at hstep
              subst hstep
              refine ⟨hpers, ?_⟩
              intro it2 hit2 k a hc2
              rcases List.mem_cons.mp hit2 with rfl | hit3
              · rw [hcell] at hc2
                simp only [TR.ok.injEq, Option.some.injEq] at hc2
                have hk : ka.1 = k ∧ ka.2 = a := by
                  rcases ka with ⟨k0, a0x⟩
                  simp only at hc2 ⊢
                  exact ⟨congrArg Prod.fst hc2, congrArg Prod.snd hc2⟩
                refine hpers k a ?_
                rw [← hk.1, ← hk.2, ← ha]
                exact hlk
              · exact hitems it2 hit3 k a hc2
            · rw [if_neg ha] at hstep
              exact absurd hstep (by simp)

/-- The row fold keeps the keys duplicate-free. -/
theorem rowFold_nodup (g : GrammarData) (states : List (List LR1Item))
    (fuel : Nat) (I : List LR1Item) :
    ∀ (items : List LR1Item) (row0 row : List (String × Action)),
      (items.foldl (fun acc it =>
        match acc with
        | TR.ok row => rowStep g states fuel I row it
        | r => r) (TR.ok row0)) = TR.ok row →
      (row0.map Prod.fst).Nodup → (row.map Prod.fst).Nodup := by
  intro items
  induction items with
  | nil =>
    intro row0 row h hnd
    simp only [List.foldl_nil, TR.ok.injEq] at h
    subst h
    exact hnd
  | cons it items ih =>
    intro row0 row h hnd
    simp only [List.foldl_cons] at h
    cases hstep : rowStep g states fuel I row0 it with
    | crash =>
      rw [hstep] at h
      exfalso
      have : ∀ (l : List LR1Item), (l.foldl (fun acc it2 =>
          match acc with
          | TR.ok row => rowStep g states fuel I row it2
          | r => r) TR.crash) = TR.crash := by
        intro l
        induction l with
        | nil => rfl
        | cons x l ihl => simp only [List.foldl_cons]; exact ihl
      rw [this] at h
      exact absurd h (by simp)
    | conflict =>
      rw [hstep] at h
      exfalso
      have : ∀ (l : List LR1Item), (l.foldl (fun acc it2 =>
          match acc with
          | TR.ok row => rowStep g states fuel I row it2
          | r => r) TR.conflict) = TR.conflict := by
        intro l
        induction l with
        | nil => rfl
        | cons x l ihl => simp only [List.foldl_cons]; exact ihl
      rw [this] at h
      exact absurd h (by simp)
    | ok row1 =>
      rw [hstep] at h
      refine ih row1 row h ?_
      simp only [rowStep] at hstep
      cases hcell : itemCell g states fuel I it with
      | crash => rw [hcell] at hstep; exact absurd hstep (by simp)
      | conflict => exact absurd hcell itemCell_ne_conflict
      | ok cell =>
        rw [hcell] at hstep
        cases cell with
        | none =>
          simp only [TR.ok.injEq] at hstep
          exact hstep ▸ hnd
        | some ka =>
          simp only at hstep
          cases hlk : alookup row0 ka.1 with
          | none =>
            rw [hlk] at hstep
            simp only [TR.ok.injEq] at hstep
            subst hstep
            have hnot := alookup_none_not_key hlk
            simp only [List.map_append, List.map_cons, List.map_nil]
            rw [List.nodup_append]
            refine ⟨hnd, by simp, ?_⟩
            intro k hk1 hk2
            simp only [List.mem_singleton] at hk2
            exact hnot (hk2 ▸ hk1)
          | some a0 =>
            rw [hlk] at hstep
            simp only at hstep
            by_cases ha : a0 = ka.2
            · rw [if_pos ha] at hstep
              simp only [TR.ok.injEq] at hstep
              exact hstep ▸ hnd
            · rw [if_neg ha] at hstep
              exact absurd hstep (by simp)

/-- A conflicting ACTION-table fold exhibits a state whose row build
conflicted. -/
theorem tableFold_conflict (g : GrammarData) (states : List (List LR1Item)) (fuel : Nat) :
    ∀ (sts : List (List LR1Item)) (rows0 : List (List (String × Action))),
      (sts.foldl (fun acc I =>
        match acc with
        | TR.ok rows =>
          match buildRow g states fuel I with
          | TR.ok row => TR.ok (rows ++ [row])
          | TR.conflict => TR.conflict
          | TR.crash => TR.crash
        | r => r) (TR.ok rows0)) = TR.conflict →
      ∃ I ∈ sts, buildRow g states fuel I = TR.conflict := by
  intro sts
  induction sts with
  | nil =>
    intro rows0 h
    simp at h
  | cons I sts ih =>
    intro rows0 h
    simp only [List.foldl_cons] at h
    cases hbr : buildRow g states fuel I with
    | crash =>
      rw [hbr] at h
      exfalso
      have : ∀ (l : List (List LR1Item)), (l.foldl (fun acc I2 =>
          match acc with
          | TR.ok rows =>
            match buildRow g states fuel I2 with
            | TR.ok row => TR.ok (rows ++ [row])
            | TR.conflict => TR.conflict
            | TR.crash => TR.crash
          | r => r) TR.crash) = TR.crash := by
        intro l
        induction l with
        | nil => rfl
        | cons x l ihl => simp only [List.foldl_cons]; exact ihl
      rw [this] at h
      exact absurd h (by simp)
    | conflict => exact ⟨I, by simp, hbr⟩
    | ok row1 =>
      rw [hbr] at h
      obtain ⟨I2, hI2, h2⟩ := ih (rows0 ++ [row1]) h
      exact ⟨I2, by simp [hI2], h2⟩

/-- A successful ACTION-table fold built every state row successfully. -/
theorem tableFold_ok_all (g : GrammarData) (states : List (List LR1Item)) (fuel : Nat) :
    ∀ (sts : List (List LR1Item)) (rows0 rows : List (List (String × Action))),
      (sts.foldl (fun acc I =>
        match acc with
        | TR.ok rows =>
          match buildRow g states fuel I with
          | TR.ok row => TR.ok (rows ++ [row])
          | TR.conflict => TR.conflict
          | TR.crash => TR.crash
        | r => r) (TR.ok rows0)) = TR.ok rows →
      ∀ I ∈ sts, ∃ row, buildRow g states fuel I = TR.ok row := by
  intro sts
  induction sts with
  | nil =>
    intro rows0 rows _ I hI
    simp at hI
  | cons I sts ih =>
    intro rows0 rows h I2 hI2
    simp only [List.foldl_cons] at h
    cases hbr : buildRow g states fuel I with
    | crash =>
      rw [hbr] at h
      exfalso
      have : ∀ (l : List (List LR1Item)), (l.foldl (fun acc I3 =>
          match acc with
          | TR.ok rows =>
            match buildRow g states fuel I3 with
            | TR.ok row => TR.ok (rows ++ [row])
            | TR.conflict => TR.conflict
            | TR.crash => TR.crash
          | r => r) TR.crash) = TR.crash := by
        intro l
        induction l with
        | nil => rfl
        | cons x l ihl => simp only [List.foldl_cons]; exact ihl
      rw [this] at h
      exact absurd h (by simp)
    | conflict =>
      rw [hbr] at h
      exfalso
      have : ∀ (l : List (List LR1Item)), (l.foldl (fun acc I3 =>
          match acc with
          | TR.ok rows =>
            match buildRow g states fuel I3 with
            | TR.ok row => TR.ok (rows ++ [row])
            | TR.conflict => TR.conflict
            | TR.crash => TR.crash
          | r => r) TR.conflict) = TR.conflict := by
        intro l
        induction l with
        | nil => rfl
        | cons x l ihl => simp only [List.foldl_cons]; exact ihl
      rw [this] at h
      exact absurd h (by simp)
    | ok row1 =>
      rw [hbr] at h
      rcases List.mem_cons.mp hI2 with rfl | hI3
      · exact ⟨row1, hbr⟩
      · exact ih (rows0 ++ [row1]) rows h I2 hI3

/-- A conflicted row build exhibits two items writing distinct actions
into one cell. -/
theorem buildRow_conflict_exists {g : GrammarData} {states : List (List LR1Item)}
    {fuel : Nat} {I : List LR1Item}
    (h : buildRow g states fuel I = TR.conflict) :
    ∃ i1 ∈ I, ∃ i2 ∈ I, ∃ k a1 a2,
      itemCell g states fuel I i1 = TR.ok (some (k, a1)) ∧
      itemCell g states fuel I i2 = TR.ok (some (k, a2)) ∧ a1 ≠ a2 :=
  rowFold_conflict g states fuel I I [] (fun _ hs => hs) (by simp) h

/-- Two items writing distinct actions into one cell make the row build
fail. -/
theorem buildRow_ne_ok_of_clash {g : GrammarData} {states : List (List LR1Item)}
    {fuel : Nat} {I : List LR1Item} {i1 i2 : LR1Item} {k : String} {a1 a2 : Action}
    (h1 : i1 ∈ I) (h2 : i2 ∈ I)
    (hc1 : itemCell g states fuel I i1 = TR.ok (some (k, a1)))
    (hc2 : itemCell g states fuel I i2 = TR.ok (some (k, a2)))
    (hne : a1 ≠ a2) :
    ∀ row, buildRow g states fuel I ≠ TR.ok row := by
  intro row h
  obtain ⟨_, hitems⟩ := rowFold_lookup g states fuel I I [] row h
  have e1 := hitems i1 h1 k a1 hc1
  have e2 := hitems i2 h2 k a2 hc2
  rw [e1] at e2
  exact hne (Option.some.inj e2)

/-- C3: for a grammar whose canonical collection was built and whose
table construction does not crash, `fit` reports NotLR1 exactly when two
items of some state would write distinct actions into the same
(state, terminal) ACTION cell; and when `fit` returns a recognizer, every
ACTION row holds at most one action per terminal (its keys are
duplicate-free). -/
theorem c3_fit_notLR1_iff_conflict (g : GrammarData) (fuel bfuel : Nat)
    (sts : List (List LR1Item)) (trs : List (Nat × String × Nat))
    (hbs : build_states g fuel bfuel = some (sts, trs))
    (hnc : build_tables g sts trs fuel ≠ TR.crash) :
    (fit g fuel bfuel = FitRes.notLR1 ↔ ConflictExists g sts fuel) ∧
    (∀ P, fit g fuel bfuel = FitRes.ok P →
      ∀ row ∈ P.action_table, (row.map Prod.fst).Nodup) := by
  cases hbt : build_tables g sts trs fuel with
  | crash => exact absurd hbt hnc
  | conflict =>
    have hfit : fit g fuel bfuel = FitRes.notLR1 := by
      simp only [fit, hbs, hbt]
    have hat : buildActionTable g sts fuel = TR.conflict := by
      simp only [build_tables] at hbt
      cases h2 : buildActionTable g sts fuel with
      | crash =>
        rw [h2] at hbt
        simp only at hbt
        exact absurd hbt (by simp)
      | conflict => rfl
      | ok rows2 =>
        rw [h2] at hbt
        simp only at hbt
        cases hgt : buildGotoTable g sts.length trs with
        | none =>
          rw [hgt] at hbt
          simp only at hbt
          exact absurd hbt (by simp)
        | some gt2 =>
          rw [hgt] at hbt
          simp only at hbt
          exact absurd hbt (by simp)
    obtain ⟨I, hI, hbrI⟩ := tableFold_conflict g sts fuel sts [] hat
    obtain ⟨i1, hm1, i2, hm2, k, a1, a2, hcc1, hcc2, hne⟩ :=
      buildRow_conflict_exists hbrI
    refine ⟨?_, ?_⟩
    · rw [hfit]
      exact ⟨fun _ => ⟨I, hI, i1, hm1, i2, hm2, k, a1, a2, hcc1, hcc2, hne⟩,
        fun _ => rfl⟩
    · intro P hP
      rw [hfit] at hP
      exact absurd hP (by simp)
  | ok pr =>
    obtain ⟨rows, gt⟩ := pr
    have hfit : fit g fuel bfuel = FitRes.ok ⟨g, sts, rows, gt⟩ := by
      simp only [fit, hbs, hbt]
    have hat : buildActionTable g sts fuel = TR.ok rows := by
      simp only [build_tables] at hbt
      cases h2 : buildActionTable g sts fuel with
      | crash =>
        rw [h2] at hbt
        simp only at hbt
        exact absurd hbt (by simp)
      | conflict =>
        rw [h2] at hbt
        simp only at hbt
        exact absurd hbt (by simp)
      | ok rows2 =>
        rw [h2] at hbt
        simp only at hbt
        cases hgt : buildGotoTable g sts.length trs with
        | none =>
          rw [hgt] at hbt
          simp only at hbt
          exact absurd hbt (by simp)
        | some gt2 =>
          rw [hgt] at hbt
          simp only [TR.ok.injEq, Prod.mk.injEq] at hbt
          rw [← hbt.1]
    refine ⟨⟨?_, ?_⟩, ?_⟩
    · intro h
      rw [hfit] at h
      exact absurd h (by simp)
    · intro hconf
      exfalso
      obtain ⟨I, hI, i1, hm1, i2, hm2, k, a1, a2, hcc1, hcc2, hne⟩ := hconf
      obtain ⟨row, hrow⟩ := tableFold_ok_all g sts fuel sts [] rows hat I hI
      exact buildRow_ne_ok_of_clash hm1 hm2 hcc1 hcc2 hne row hrow
    · intro P hP
      rw [hfit] at hP
      have hP2 := FitRes.ok.inj hP
      rw [← hP2]
      intro row hrow
      rcases (tableFold_rows g sts fuel sts [] rows hat).2 row hrow with h0 | ⟨I, hI, hbrow⟩
      · simp at h0
      · exact rowFold_nodup g sts fuel I I [] row hbrow (by simp)

/-- The canonical collection and transitions of the concrete grammar of
`gAG`, for instantiating the C3 theorem. -/
def c3sts : List (List LR1Item) := ((build_states gAG 100 100).getD ([], [])).1

/-- The transition list matching `c3sts`. -/
def c3trs : List (Nat × String × Nat) := ((build_states gAG 100 100).getD ([], [])).2

/-- Witness for C3 at the concrete grammar S -> a: its table build does
not crash and the theorem applies. -/
theorem c3_fit_notLR1_iff_conflict_witness :
    (fit gAG 100 100 = FitRes.notLR1 ↔ ConflictExists gAG c3sts 100) ∧
    (∀ P, fit gAG 100 100 = FitRes.ok P →
      ∀ row ∈ P.action_table, (row.map Prod.fst).Nodup) :=
  c3_fit_notLR1_iff_conflict gAG 100 100 c3sts c3trs rfl (by
    intro h
    have h2 : build_tables gAG c3sts c3trs 100 =
        TR.ok (pAG.action_table, pAG.goto_table) := rfl
    rw [h2] at h
    exact absurd h (by simp))

end LRSpec
